import Mathlib

/-!
Shallow embedding of the course-outline subsystem of
`openedx/core/djangoapps/content/learning_sequences` (data.py, outlines.py,
models.py, processors/base.py, processors/schedule.py, processors/visibility.py).

Conventions of the embedding:
* `datetime` values are modelled as `Int` (only ordering and equality are used).
* Opaque keys are modelled as small structures with decidable equality.
* Python dicts are modelled as association lists with Python's dict semantics
  (assignment on an existing key overwrites in place, otherwise appends).
* Python (frozen)sets are modelled as `Finset`.
* The Django ORM tables of models.py are modelled as lists of row structures
  inside a `Store`; `update_or_create` is modelled as updating all rows that
  match the natural key (unique in any well-keyed store) or appending a new row.
* Exceptions are modelled with `Except` / an explicit error component.
* The TieredCache of outlines.py is absent: read claims are stated "with no
  cache present", and the spec declares the cache an optimization only.
-/

/-- Model of `opaque_keys.edx.keys.CourseKey`: an identifier plus the
`deprecated` flag consulted by outlines.py and the data.py validator. -/
structure CourseKeyT where
  run : String
  deprecated : Bool
deriving DecidableEq

/-- Model of `opaque_keys.edx.keys.UsageKey`: the course it belongs to, the
block type (`"chapter"`, `"sequential"`, `"course"`, ...) and a block id. -/
structure UsageKey where
  course : String
  block_type : String
  block_id : String
deriving DecidableEq

/-- Model of `CourseKey.make_usage_key(block_type, block_id)`. -/
def CourseKeyT.make_usage_key (ck : CourseKeyT) (bt bid : String) : UsageKey :=
  ⟨ck.run, bt, bid⟩

/-- The Python exceptions that the embedded code can raise. -/
inductive PyError where
  | valueError          -- deprecated course key (InvalidKey error)
  | doesNotExist        -- CourseOutlineData.DoesNotExist
  | keyError            -- dict lookup failure
  | notImplementedError -- base-class method not overridden
  | attributeError      -- attribute missing on a value object
deriving DecidableEq

/-- data.py `LearningSequenceData`. -/
structure LearningSequenceData where
  usage_key : UsageKey
  title : String
deriving DecidableEq

/-- data.py `CourseItemVisibilityData`: two sets of usage keys. -/
structure CourseItemVisibilityData where
  hide_from_toc : Finset UsageKey
  visible_to_staff_only : Finset UsageKey
deriving DecidableEq

/-- data.py `CourseSectionData`. -/
structure CourseSectionData where
  usage_key : UsageKey
  title : String
  sequences : List LearningSequenceData
deriving DecidableEq

/-- data.py `CourseOutlineData`.  The `sequences` dict is an association list
with Python dict semantics; `published_at` is a timestamp. -/
structure CourseOutlineData where
  course_key : CourseKeyT
  title : String
  published_at : Int
  published_version : String
  sections : List CourseSectionData
  sequences : List (UsageKey × LearningSequenceData)
  visibility : CourseItemVisibilityData
deriving DecidableEq

/-- data.py `ScheduleItemData`. -/
structure ScheduleItemData where
  usage_key : UsageKey
  start : Option Int
  effective_start : Option Int
  due : Option Int
deriving DecidableEq

/-- data.py `ScheduleData`. -/
structure ScheduleData where
  course_start : Option Int
  course_end : Option Int
  sections : List (UsageKey × ScheduleItemData)
  sequences : List (UsageKey × ScheduleItemData)
deriving DecidableEq

/-- Model of a Django `User`: an id plus a staff flag.  The source never
consults the staff flag (see `_get_user_course_outline_and_processors`). -/
structure UserT where
  id : Nat
  is_staff : Bool
deriving DecidableEq

/-- data.py `UserCourseOutlineData`: all `CourseOutlineData` fields plus the
per-user fields. -/
structure UserCourseOutlineData where
  course_key : CourseKeyT
  title : String
  published_at : Int
  published_version : String
  sections : List CourseSectionData
  sequences : List (UsageKey × LearningSequenceData)
  visibility : CourseItemVisibilityData
  base_outline : CourseOutlineData
  user : UserT
  at_time : Int
  accessible_sequences : Finset UsageKey
deriving DecidableEq

/-! ### Python dict helpers -/

/-- Python dict assignment `d[k] = v`: overwrite in place if the key exists,
otherwise append. -/
def dictInsert {β : Type} (k : UsageKey) (v : β) :
    List (UsageKey × β) → List (UsageKey × β)
  | [] => [(k, v)]
  | e :: rest => if e.1 = k then (k, v) :: rest else e :: dictInsert k v rest

/-- Python dict read `d[k]` (as an `Option`). -/
def dictLookup {β : Type} (k : UsageKey) (d : List (UsageKey × β)) : Option β :=
  (d.find? (fun e => decide (e.1 = k))).map (·.2)

/-- `defaultdict(list)` append `d[k].append(v)`. -/
def mapAppend {β : Type} (k : UsageKey) (v : β) :
    List (UsageKey × List β) → List (UsageKey × List β)
  | [] => [(k, [v])]
  | e :: rest => if e.1 = k then (e.1, e.2 ++ [v]) :: rest else e :: mapAppend k v rest

/-- `defaultdict(list)` read: the stored list, or `[]`. -/
def mapGetD {β : Type} (d : List (UsageKey × List β)) (k : UsageKey) : List β :=
  ((d.find? (fun e => decide (e.1 = k))).map (·.2)).getD []

/-- `data.py CourseOutlineData.remove`: documented as building a new outline
without the given usage keys, but the body is
`keys_to_remove = set(usage_keys)` followed by
`# Placeholder: not really working yet` and `return self`. -/
def CourseOutlineData.remove (o : CourseOutlineData) (usage_keys : Finset UsageKey) :
    CourseOutlineData :=
  let _keys_to_remove := usage_keys
  o

/-- The keys of the flat `sequences` dict of an outline, as a `Finset`. -/
def CourseOutlineData.seqKeys (o : CourseOutlineData) : Finset UsageKey :=
  (o.sequences.map Prod.fst).toFinset

/-- The usage keys of the sections list. -/
def CourseOutlineData.sectionKeysList (o : CourseOutlineData) : List UsageKey :=
  o.sections.map (·.usage_key)

/-- All sequences referenced inside some section, in section order
(Python's nested `for` over `course_outline.sections`). -/
def CourseOutlineData.referencedSeqs (o : CourseOutlineData) : List LearningSequenceData :=
  o.sections.flatMap (·.sequences)

/-- The keys of the flat `sequences` dict of an outline, as a list. -/
def CourseOutlineData.dictKeysList (o : CourseOutlineData) : List UsageKey :=
  o.sequences.map Prod.fst

/-! ### models.py rows and the store -/

/-- models.py `LearningContext` row (natural key: `context_key`). -/
structure LearningContextRow where
  context_key : CourseKeyT
  title : String
  published_at : Int
  published_version : String
deriving DecidableEq

/-- models.py `CourseSection` row (natural key: `(learning_context, usage_key)`). -/
structure CourseSectionRow where
  context_key : CourseKeyT
  usage_key : UsageKey
  title : String
  order : Nat
  hide_from_toc : Bool
  visible_to_staff_only : Bool
deriving DecidableEq

/-- models.py `LearningSequence` row (natural key: `(learning_context, usage_key)`). -/
structure LearningSequenceRow where
  context_key : CourseKeyT
  usage_key : UsageKey
  title : String
deriving DecidableEq

/-- models.py `CourseSectionSequence` row.  The `section` foreign key is kept
as the section's usage key (unique within the context); the `sequence` foreign
key is kept as a copy of the referenced row (matching `select_related`), which
is sound because join rows are always wiped and recreated after sequence rows
are final. -/
structure CourseSectionSequenceRow where
  context_key : CourseKeyT
  section_key : UsageKey
  sequence : LearningSequenceRow
  order : Nat
  hide_from_toc : Bool
  visible_to_staff_only : Bool
deriving DecidableEq

/-- The relational store backing the outline API. -/
structure Store where
  contexts : List LearningContextRow
  course_sections : List CourseSectionRow
  learning_sequences : List LearningSequenceRow
  section_sequences : List CourseSectionSequenceRow
deriving DecidableEq

def Store.empty : Store := ⟨[], [], [], []⟩

/-! ### outlines.py — write path (`replace_course_outline`) -/

/-- Does a row match `(learning_context, usage_key)`? -/
def secRowMatch (ck : CourseKeyT) (k : UsageKey) (r : CourseSectionRow) : Bool :=
  decide (r.context_key = ck ∧ r.usage_key = k)

/-- The `CourseSection` row that `_update_sections` writes for the section at
position `order` of the input outline. -/
def secRowOf (o : CourseOutlineData) (order : Nat) (sec : CourseSectionData) :
    CourseSectionRow :=
  { context_key := o.course_key
    usage_key := sec.usage_key
    title := sec.title
    order := order
    hide_from_toc := decide (sec.usage_key ∈ o.visibility.hide_from_toc)
    visible_to_staff_only := decide (sec.usage_key ∈ o.visibility.visible_to_staff_only) }

/-- `CourseSection.objects.update_or_create(learning_context, usage_key,
defaults={title, order, hide_from_toc, visible_to_staff_only})`. -/
def upsertSectionRow (row : CourseSectionRow) (rows : List CourseSectionRow) :
    List CourseSectionRow :=
  if rows.any (secRowMatch row.context_key row.usage_key) then
    rows.map (fun r =>
      if secRowMatch row.context_key row.usage_key r then
        { r with title := row.title, order := row.order,
                 hide_from_toc := row.hide_from_toc,
                 visible_to_staff_only := row.visible_to_staff_only }
      else r)
  else rows ++ [row]

/-- The upsert loop of `_update_sections` (`for order, section_data in
enumerate(course_outline.sections)`), starting at position `i`. -/
def updateSectionsFrom (o : CourseOutlineData) (i : Nat) :
    List CourseSectionData → List CourseSectionRow → List CourseSectionRow
  | [], rows => rows
  | sec :: rest, rows =>
      updateSectionsFrom o (i + 1) rest (upsertSectionRow (secRowOf o i sec) rows)

/-- The stale-section cleanup of `_update_sections`: delete rows of this
context whose usage key is absent from the new outline. -/
def deleteStaleSections (o : CourseOutlineData) (rows : List CourseSectionRow) :
    List CourseSectionRow :=
  rows.filter (fun r =>
    !(decide (r.context_key = o.course_key) && !(decide (r.usage_key ∈ o.sectionKeysList))))

/-- `_update_sections`. -/
def updateSectionsTable (o : CourseOutlineData) (rows : List CourseSectionRow) :
    List CourseSectionRow :=
  deleteStaleSections o (updateSectionsFrom o 0 o.sections rows)

/-- Does a sequence row match `(learning_context, usage_key)`? -/
def seqRowMatch (ck : CourseKeyT) (k : UsageKey) (r : LearningSequenceRow) : Bool :=
  decide (r.context_key = ck ∧ r.usage_key = k)

/-- The `LearningSequence` row written for a referenced sequence. -/
def seqRowOf (ck : CourseKeyT) (sq : LearningSequenceData) : LearningSequenceRow :=
  ⟨ck, sq.usage_key, sq.title⟩

/-- `LearningSequence.objects.update_or_create(learning_context, usage_key,
defaults={title})`. -/
def upsertSequenceRow (ck : CourseKeyT) (sq : LearningSequenceData)
    (rows : List LearningSequenceRow) : List LearningSequenceRow :=
  if rows.any (seqRowMatch ck sq.usage_key) then
    rows.map (fun r => if seqRowMatch ck sq.usage_key r then { r with title := sq.title } else r)
  else rows ++ [seqRowOf ck sq]

/-- The upsert loop of `_update_sequences` over all sequences referenced
inside sections (nested `for` flattened in iteration order). -/
def updateSequencesList (ck : CourseKeyT) :
    List LearningSequenceData → List LearningSequenceRow → List LearningSequenceRow
  | [], rows => rows
  | sq :: rest, rows => updateSequencesList ck rest (upsertSequenceRow ck sq rows)

/-- The stale-sequence cleanup of `_update_sequences`: delete rows of this
context whose usage key is not a key of the outline's flat `sequences` dict. -/
def deleteStaleSequences (o : CourseOutlineData) (rows : List LearningSequenceRow) :
    List LearningSequenceRow :=
  rows.filter (fun r =>
    !(decide (r.context_key = o.course_key) && !(decide (r.usage_key ∈ o.dictKeysList))))

/-- `_update_sequences`. -/
def updateSequencesTable (o : CourseOutlineData) (rows : List LearningSequenceRow) :
    List LearningSequenceRow :=
  deleteStaleSequences o (updateSequencesList o.course_key o.referencedSeqs rows)

/-- The `section_models` dict built by `_update_course_section_sequences`
(`{m.usage_key: m for m in CourseSection.objects.filter(learning_context)}`),
read as a lookup.  In a well-keyed store the natural key is unique, so the
first matching row is the only one. -/
def findSectionRow (s : Store) (ck : CourseKeyT) (k : UsageKey) : Option CourseSectionRow :=
  s.course_sections.find? (secRowMatch ck k)

/-- The `sequence_models` dict of `_update_course_section_sequences`. -/
def findSequenceRow (s : Store) (ck : CourseKeyT) (k : UsageKey) : Option LearningSequenceRow :=
  s.learning_sequences.find? (seqRowMatch ck k)

/-- Does a join row match `(learning_context, section, sequence)`? -/
def joinRowMatch (ck : CourseKeyT) (secKey seqKey : UsageKey)
    (r : CourseSectionSequenceRow) : Bool :=
  decide (r.context_key = ck ∧ r.section_key = secKey ∧ r.sequence.usage_key = seqKey)

/-- `CourseSectionSequence.objects.update_or_create(learning_context, section,
sequence, defaults={order, hide_from_toc, visible_to_staff_only})`. -/
def upsertJoinRow (row : CourseSectionSequenceRow) (rows : List CourseSectionSequenceRow) :
    List CourseSectionSequenceRow :=
  if rows.any (joinRowMatch row.context_key row.section_key row.sequence.usage_key) then
    rows.map (fun r =>
      if joinRowMatch row.context_key row.section_key row.sequence.usage_key r then
        { r with order := row.order, hide_from_toc := row.hide_from_toc,
                 visible_to_staff_only := row.visible_to_staff_only }
      else r)
  else rows ++ [row]

/-- The join row written for sequence `sq` of the section with usage key
`secKey` at section position `order`. -/
def joinRowOf (o : CourseOutlineData) (order : Nat) (secKey : UsageKey)
    (qrow : LearningSequenceRow) (sq : LearningSequenceData) : CourseSectionSequenceRow :=
  { context_key := o.course_key
    section_key := secKey
    sequence := qrow
    order := order
    hide_from_toc := decide (sq.usage_key ∈ o.visibility.hide_from_toc)
    visible_to_staff_only := decide (sq.usage_key ∈ o.visibility.visible_to_staff_only) }

/-- Inner loop of `_update_course_section_sequences` over one section's
sequences.  `sequence_models[sequence_data.usage_key]` raises `KeyError`
(modelled as `none`) when the sequence row is absent. -/
def joinsForSection (o : CourseOutlineData) (s4 : Store) (order : Nat) (secKey : UsageKey) :
    List LearningSequenceData → List CourseSectionSequenceRow →
    Option (List CourseSectionSequenceRow)
  | [], rows => some rows
  | sq :: rest, rows =>
      match findSequenceRow s4 o.course_key sq.usage_key with
      | none => none
      | some qrow =>
          joinsForSection o s4 order secKey rest (upsertJoinRow (joinRowOf o order secKey qrow sq) rows)

/-- Outer loop of `_update_course_section_sequences`
(`for order, section_data in enumerate(course_outline.sections)`).
`section_models[section_data.usage_key]` raises `KeyError` when absent. -/
def joinsFromSections (o : CourseOutlineData) (s4 : Store) (i : Nat) :
    List CourseSectionData → List CourseSectionSequenceRow →
    Option (List CourseSectionSequenceRow)
  | [], rows => some rows
  | sec :: rest, rows =>
      match findSectionRow s4 o.course_key sec.usage_key with
      | none => none
      | some srow =>
          match joinsForSection o s4 i srow.usage_key sec.sequences rows with
          | none => none
          | some rows' => joinsFromSections o s4 (i + 1) rest rows'

/-- `_update_learning_context`: `LearningContext.objects.update_or_create(
context_key, defaults={title, published_at, published_version})`. -/
def upsertContext (o : CourseOutlineData) (rows : List LearningContextRow) :
    List LearningContextRow :=
  if rows.any (fun r => decide (r.context_key = o.course_key)) then
    rows.map (fun r =>
      if decide (r.context_key = o.course_key) then
        { r with title := o.title, published_at := o.published_at,
                 published_version := o.published_version }
      else r)
  else rows ++ [⟨o.course_key, o.title, o.published_at, o.published_version⟩]

/-- outlines.py `replace_course_outline`, as a transition on the store.  The
second component is the raised exception, if any; by `transaction.atomic`, a
raised exception leaves the store unchanged. -/
def replace_course_outline (o : CourseOutlineData) (s : Store) : Store × Option PyError :=
  if o.course_key.deprecated then (s, some .valueError)
  else
    let s1 : Store := { s with contexts := upsertContext o s.contexts }
    -- learning_context.section_sequences.all().delete()
    let s2 : Store := { s1 with section_sequences :=
      s1.section_sequences.filter (fun r => !(decide (r.context_key = o.course_key))) }
    let s3 : Store := { s2 with course_sections := updateSectionsTable o s2.course_sections }
    let s4 : Store := { s3 with learning_sequences := updateSequencesTable o s3.learning_sequences }
    match joinsFromSections o s4 0 o.sections s4.section_sequences with
    | some joins => ({ s4 with section_sequences := joins }, none)
    | none => (s, some .keyError)

/-! ### outlines.py — read path (`get_course_outline`, no cache) -/

/-- Stable insertion of an element into a list sorted by `key`. -/
def insOrd {α : Type} (key : α → Nat) (a : α) : List α → List α
  | [] => [a]
  | x :: xs => if key a ≤ key x then a :: x :: xs else x :: insOrd key a xs

/-- Stable insertion sort, modelling `.order_by('order')` (ties keep the
stored order, matching a stable database scan). -/
def sortByKey {α : Type} (key : α → Nat) : List α → List α
  | [] => []
  | x :: xs => insOrd key x (sortByKey key xs)

/-- Accumulator of the loop over `section_sequence_models` in
`get_course_outline`. -/
structure ReadAcc where
  sec_map : List (UsageKey × List LearningSequenceData)
  seq_dict : List (UsageKey × LearningSequenceData)
  hide : Finset UsageKey
  vtso : Finset UsageKey

/-- The loop over `section_sequence_models`: rebuild each sequence's data,
index it, group it under its section, and collect visibility flags. -/
def readJoins : List CourseSectionSequenceRow → ReadAcc → ReadAcc
  | [], acc => acc
  | r :: rest, acc =>
      let sd : LearningSequenceData := ⟨r.sequence.usage_key, r.sequence.title⟩
      readJoins rest
        { sec_map := mapAppend r.section_key sd acc.sec_map
          seq_dict := dictInsert sd.usage_key sd acc.seq_dict
          hide := if r.hide_from_toc then insert sd.usage_key acc.hide else acc.hide
          vtso := if r.visible_to_staff_only then insert sd.usage_key acc.vtso else acc.vtso }

/-- The loop over `section_models`: build `sections_data` (empty sections get
`[]` from the defaultdict) and add section-level visibility flags. -/
def readSections (m : List (UsageKey × List LearningSequenceData)) :
    List CourseSectionRow →
    List CourseSectionData × Finset UsageKey × Finset UsageKey →
    List CourseSectionData × Finset UsageKey × Finset UsageKey
  | [], out => out
  | r :: rest, (secs, hide, vtso) =>
      readSections m rest
        (secs ++ [⟨r.usage_key, r.title, mapGetD m r.usage_key⟩],
         (if r.hide_from_toc then insert r.usage_key hide else hide),
         (if r.visible_to_staff_only then insert r.usage_key vtso else vtso))

/-- outlines.py `get_course_outline` with the cache absent (the claims are
about the cacheless behaviour; the spec calls the cache an optimization that
correctness must not depend on).  Includes
`_get_learning_context_for_outline`'s deprecated-key and existence checks. -/
def get_course_outline (course_key : CourseKeyT) (s : Store) :
    Except PyError CourseOutlineData :=
  if course_key.deprecated then .error .valueError
  else
    match s.contexts.find? (fun r => decide (r.context_key = course_key)) with
    | none => .error .doesNotExist
    | some lc =>
        let section_models := sortByKey (·.order)
          (s.course_sections.filter (fun r => decide (r.context_key = course_key)))
        let section_sequence_models := sortByKey (·.order)
          (s.section_sequences.filter (fun r => decide (r.context_key = course_key)))
        let acc := readJoins section_sequence_models ⟨[], [], ∅, ∅⟩
        let out := readSections acc.sec_map section_models ([], acc.hide, acc.vtso)
        .ok
          { course_key := lc.context_key
            title := lc.title
            published_at := lc.published_at
            published_version := lc.published_version
            sections := out.1
            sequences := acc.seq_dict
            visibility := ⟨out.2.1, out.2.2⟩ }

/-! ### processors/schedule.py — `ScheduleOutlineProcessor` -/

/-- Python `min` over the non-`None` arguments of
`ScheduleOutlineProcessor._effective_start(*dates)`: `None` when no date is
specified, else the minimum. -/
def optMinList (dates : List (Option Int)) : Option Int :=
  match dates.filterMap id with
  | [] => none
  | d :: ds => some (ds.foldl min d)

/-- The state of a `ScheduleOutlineProcessor` after `load_data()`: the
constructor arguments plus the `(usage_key, field_name) -> date` mapping
returned by `get_dates_for_course` (the date-source contract). -/
structure ScheduleOutlineProcessor where
  course_key : CourseKeyT
  user : UserT
  at_time : Int
  dates : List ((UsageKey × String) × Int)
deriving DecidableEq

namespace ScheduleOutlineProcessor

/-- `self.keys_to_schedule_fields[usage_key].get(field_name)` as built by
`load_data` (the incoming dict has one entry per `(usage_key, field_name)`). -/
def fieldOf (p : ScheduleOutlineProcessor) (k : UsageKey) (f : String) : Option Int :=
  (p.dates.find? (fun e => decide (e.1 = (k, f)))).map (·.2)

/-- `self._course_start`, extracted from the course pseudo-item
`course_key.make_usage_key('course', 'course')`. -/
def course_start (p : ScheduleOutlineProcessor) : Option Int :=
  p.fieldOf (p.course_key.make_usage_key "course" "course") "start"

/-- `self._course_end`. -/
def course_end (p : ScheduleOutlineProcessor) : Option Int :=
  p.fieldOf (p.course_key.make_usage_key "course" "course") "end"

/-- `usage_keys_to_remove`: dates never hide the existence of content. -/
def usage_keys_to_remove (_p : ScheduleOutlineProcessor) (_o : CourseOutlineData) :
    Finset UsageKey :=
  ∅

/-- `if self._course_start is None or self.at_time < self._course_start`. -/
def courseNotStarted (p : ScheduleOutlineProcessor) : Bool :=
  match p.course_start with
  | none => true
  | some cs => decide (p.at_time < cs)

/-- `if section_start and self.at_time < section_start` (a datetime is always
truthy, so truthiness is just non-`None`-ness). -/
def gateOf (p : ScheduleOutlineProcessor) (k : UsageKey) : Bool :=
  match p.fieldOf k "start" with
  | none => false
  | some st => decide (p.at_time < st)

/-- The usage keys one section contributes to `inaccessible`: all of its
sequences when the section itself has not started, otherwise the sequences
whose own start gates them. -/
def sectionContribution (p : ScheduleOutlineProcessor) (sec : CourseSectionData) :
    Finset UsageKey :=
  if p.gateOf sec.usage_key then (sec.sequences.map (·.usage_key)).toFinset
  else ((sec.sequences.filter (fun sq => p.gateOf sq.usage_key)).map (·.usage_key)).toFinset

/-- `inaccessible_sequences(full_course_outline)` of processors/schedule.py.
In the unreleased-course branch the source returns the `sequences` dict
itself; its set content is its key set, which is what we return. -/
def inaccessible_sequences (p : ScheduleOutlineProcessor) (o : CourseOutlineData) :
    Finset UsageKey :=
  if p.courseNotStarted then o.seqKeys
  else o.sections.foldl (fun acc sec => acc ∪ p.sectionContribution sec) ∅

/-- base.py `OutlineProcessor.inaccessible_usage_keys` raises
`NotImplementedError`; processors/schedule.py overrides `inaccessible_sequences`
but not `inaccessible_usage_keys`, so this inherited method is what
outlines.py invokes on the schedule processor. -/
def inaccessible_usage_keys (_p : ScheduleOutlineProcessor) (_o : CourseOutlineData) :
    Except PyError (Finset UsageKey) :=
  .error .notImplementedError

/-- Per-sequence inner loop of `schedule_data`, with the enclosing section's
`section_effective_start` in hand. -/
def seqSchedule (p : ScheduleOutlineProcessor) (section_effective_start : Option Int) :
    List LearningSequenceData → List (UsageKey × ScheduleItemData) →
    List (UsageKey × ScheduleItemData)
  | [], acc => acc
  | sq :: rest, acc =>
      let seq_start := p.fieldOf sq.usage_key "start"
      let seq_due := p.fieldOf sq.usage_key "due"
      seqSchedule p section_effective_start rest
        (dictInsert sq.usage_key
          ⟨sq.usage_key, seq_start, optMinList [section_effective_start, seq_start], seq_due⟩
          acc)

/-- Per-section loop of `schedule_data`. -/
def secSchedule (p : ScheduleOutlineProcessor) (cs : Option Int) :
    List CourseSectionData →
    List (UsageKey × ScheduleItemData) × List (UsageKey × ScheduleItemData) →
    List (UsageKey × ScheduleItemData) × List (UsageKey × ScheduleItemData)
  | [], acc => acc
  | sec :: rest, (secAcc, seqAcc) =>
      let section_start := p.fieldOf sec.usage_key "start"
      let section_effective_start := optMinList [cs, section_start]
      let section_due := p.fieldOf sec.usage_key "due"
      secSchedule p cs rest
        (dictInsert sec.usage_key
          ⟨sec.usage_key, section_start, section_effective_start, section_due⟩ secAcc,
         seqSchedule p section_effective_start sec.sequences seqAcc)

/-- `schedule_data(pruned_course_outline)` of processors/schedule.py.  (The
source also computes `pruned_section_keys`, which it never uses.) -/
def schedule_data (p : ScheduleOutlineProcessor) (o : CourseOutlineData) : ScheduleData :=
  let course_start := p.fieldOf (p.course_key.make_usage_key "course" "course") "start"
  let course_end := p.fieldOf (p.course_key.make_usage_key "course" "course") "end"
  let acc := secSchedule p course_start o.sections ([], [])
  ⟨course_start, course_end, acc.1, acc.2⟩

end ScheduleOutlineProcessor

/-- Reference definition, written from the spec's words (§4.3/§4.4 of the
spec, quoted in claim C3): if the course-level start is unset or `at_time` is
before it, every sequence key in the outline's flat index is inaccessible;
otherwise a sequence is inaccessible exactly when some section containing it
either has a set future start, or — failing that — the sequence's own start is
set and in the future. -/
def scheduleInaccessibleSpec (p : ScheduleOutlineProcessor) (o : CourseOutlineData) :
    Finset UsageKey :=
  if p.courseNotStarted then o.seqKeys
  else
    ((o.sections.flatMap (fun sec => sec.sequences.map (·.usage_key))).filter
      (fun k => o.sections.any (fun sec =>
        sec.sequences.any (fun sq => decide (sq.usage_key = k)) &&
        (p.gateOf sec.usage_key || p.gateOf k)))).toFinset

/-- Reference definition, written from the spec's words (claim C4): the
minimum of the defined `start` values along the chain
course → section → sequence. -/
def chainEffectiveStart (cs ss qs : Option Int) : Option Int :=
  optMinList [cs, ss, qs]

/-! ### processors/visibility.py — `VisibilityOutlineProcessor` -/

namespace VisibilityOutlineProcessor

/-- `usage_keys_to_remove(full_course_outline)` of processors/visibility.py.
The source evaluates `sec.visibility.hide_from_toc` for each section and
`seq.visibility.hide_from_toc` for each value of the `sequences` dict — but
data.py's `CourseSectionData` and `LearningSequenceData` have no `visibility`
attribute at all (only `CourseOutlineData` does), so the first element of
either comprehension raises `AttributeError`.  Only an outline with no
sections and no sequences avoids both accesses and yields the empty union. -/
def usage_keys_to_remove (o : CourseOutlineData) : Except PyError (Finset UsageKey) :=
  if o.sections.isEmpty then
    if o.sequences.isEmpty then .ok ∅ else .error .attributeError
  else .error .attributeError

/-- `inaccessible_sequences` of processors/visibility.py: always empty. -/
def inaccessible_sequences (_o : CourseOutlineData) : Finset UsageKey :=
  ∅

end VisibilityOutlineProcessor

/-! ### outlines.py — user-specific derivation -/

/-- outlines.py `_get_user_course_outline_and_processors`, restricted to the
outline it produces.  The registered processor list is
`[('schedule', ScheduleOutlineProcessor)]`; `has_staff_access` is the source's
hard-coded `False` (the user's staff bit is never consulted).  For a non-staff
pass the source unions `processor.usage_keys_to_remove(full)` and then
`processor.inaccessible_usage_keys(full)` — the latter being the base-class
method, which raises. -/
def getUserCourseOutlineAndProcessors (course_key : CourseKeyT) (user : UserT)
    (at_time : Int) (s : Store) (dates : List ((UsageKey × String) × Int)) :
    Except PyError (UserCourseOutlineData × ScheduleOutlineProcessor) :=
  match get_course_outline course_key s with
  | .error e => .error e
  | .ok full_course_outline =>
      let has_staff_access := false
      let processor : ScheduleOutlineProcessor := ⟨course_key, user, at_time, dates⟩
      let build : Finset UsageKey → Finset UsageKey →
          UserCourseOutlineData × ScheduleOutlineProcessor := fun to_remove inaccessible =>
        let trimmed := full_course_outline.remove to_remove
        ({ course_key := trimmed.course_key
           title := trimmed.title
           published_at := trimmed.published_at
           published_version := trimmed.published_version
           sections := trimmed.sections
           sequences := trimmed.sequences
           visibility := trimmed.visibility
           base_outline := full_course_outline
           user := user
           at_time := at_time
           accessible_sequences := trimmed.seqKeys \ inaccessible }, processor)
      if has_staff_access then .ok (build ∅ ∅)
      else
        let usage_keys_to_remove := processor.usage_keys_to_remove full_course_outline
        match processor.inaccessible_usage_keys full_course_outline with
        | .error e => .error e
        | .ok inaccessible_usage_keys =>
            .ok (build usage_keys_to_remove inaccessible_usage_keys)

/-- outlines.py `get_user_course_outline`. -/
def get_user_course_outline (course_key : CourseKeyT) (user : UserT) (at_time : Int)
    (s : Store) (dates : List ((UsageKey × String) × Int)) :
    Except PyError UserCourseOutlineData :=
  (getUserCourseOutlineAndProcessors course_key user at_time s dates).map (·.1)

deriving instance DecidableEq for Except

/-! ### Well-formedness -/

/-- A well-keyed store: the natural key `(learning_context, usage_key)` of
`CourseSection` is unique (models.py declares `unique_together`). -/
def StoreWF (s : Store) : Prop :=
  (s.course_sections.map (fun r => (r.context_key, r.usage_key))).Nodup

/-- Well-formedness of a `CourseOutlineData`, from the data model's documented
invariants: the course key is non-deprecated (the data.py validator), usage
keys are unique, every sequence referenced inside a section appears in the
flat `sequences` dict (data.py's stated invariant), and the visibility sets
cover only section and sequence usage keys of the outline. -/
def OutlineWF (o : CourseOutlineData) : Prop :=
  o.course_key.deprecated = false ∧
  o.sectionKeysList.Nodup ∧
  (∀ sec ∈ o.sections, (sec.sequences.map (·.usage_key)).Nodup) ∧
  (∀ sec ∈ o.sections, ∀ sq ∈ sec.sequences, dictLookup sq.usage_key o.sequences = some sq) ∧
  (∀ k ∈ o.visibility.hide_from_toc, k ∈ o.sectionKeysList ∨ k ∈ o.dictKeysList) ∧
  (∀ k ∈ o.visibility.visible_to_staff_only, k ∈ o.sectionKeysList ∨ k ∈ o.dictKeysList)

/-- Every entry of the flat `sequences` dict is referenced by some section
(no index-only sequences).  data.py explicitly allows outlines violating this
(hidden-from-TOC sequences), which is what claim C1's counterexample uses. -/
def NoOrphans (o : CourseOutlineData) : Prop :=
  ∀ e ∈ o.sequences, ∃ sec ∈ o.sections, ∃ sq ∈ sec.sequences, sq.usage_key = e.1

instance (s : Store) : Decidable (StoreWF s) := by unfold StoreWF; infer_instance

instance (o : CourseOutlineData) : Decidable (OutlineWF o) := by
  unfold OutlineWF; infer_instance

instance (o : CourseOutlineData) : Decidable (NoOrphans o) := by
  unfold NoOrphans; infer_instance

/-! ### Concrete fixtures (used by counterexamples and witnesses) -/

def ck0 : CourseKeyT := ⟨"course-v1-TestX", false⟩
def ckOld : CourseKeyT := ⟨"TestX-OldMongo", true⟩

def keyA : UsageKey := ⟨"course-v1-TestX", "chapter", "A"⟩
def keyB : UsageKey := ⟨"course-v1-TestX", "chapter", "B"⟩
def keyE : UsageKey := ⟨"course-v1-TestX", "chapter", "E"⟩
def keyS1 : UsageKey := ⟨"course-v1-TestX", "sequential", "S1"⟩
def keyS2 : UsageKey := ⟨"course-v1-TestX", "sequential", "S2"⟩
def keyOrph : UsageKey := ⟨"course-v1-TestX", "sequential", "Orph"⟩
def keyCourse : UsageKey := ⟨"course-v1-TestX", "course", "course"⟩

def seqS1 : LearningSequenceData := ⟨keyS1, "Seq One"⟩
def seqS2 : LearningSequenceData := ⟨keyS2, "Seq Two"⟩
def seqOrph : LearningSequenceData := ⟨keyOrph, "Orphan Seq"⟩

def secA : CourseSectionData := ⟨keyA, "Sect A", [seqS1]⟩
def secB : CourseSectionData := ⟨keyB, "Sect B", [seqS2]⟩
def secE : CourseSectionData := ⟨keyE, "Empty Sect", []⟩

/-- Scenario outline for C2/C7: section B (hidden from TOC) containing S2. -/
def oBS2 : CourseOutlineData :=
  ⟨ck0, "Course T", 10, "v1", [secB], [(keyS2, seqS2)], ⟨{keyB, keyS2}, ∅⟩⟩

/-- Scenario outline for C5: section A (no start date) containing S1. -/
def oA : CourseOutlineData :=
  ⟨ck0, "Course T", 10, "v1", [secA], [(keyS1, seqS1)], ⟨∅, ∅⟩⟩

/-- Outline with an index-only (orphan) sequence, for C1's counterexample and
C10's witness: no sections, one sequence reachable only by direct link. -/
def oOrph : CourseOutlineData :=
  ⟨ck0, "Course T", 10, "v1", [], [(keyOrph, seqOrph)], ⟨∅, ∅⟩⟩

/-- Round-trip witness outline: two sections (one empty), a hidden section. -/
def oRT : CourseOutlineData :=
  ⟨ck0, "Course T", 10, "v1", [secB, secE], [(keyS2, seqS2)], ⟨{keyB, keyS2}, {keyS2}⟩⟩

/-- C5 dates: `course_start = 2024-01-01`, S1 `start = 2024-02-01`
(dates encoded as yyyymmdd integers, which orders them correctly). -/
def datesC5 : List ((UsageKey × String) × Int) :=
  [((keyCourse, "start"), 20240101), ((keyS1, "start"), 20240201)]

/-- The schedule processor state at `at_time = 2024-01-15`. -/
def pJan15 : ScheduleOutlineProcessor := ⟨ck0, ⟨7, false⟩, 20240115, datesC5⟩

/-- The schedule processor state at `at_time = 2024-02-02`. -/
def pFeb02 : ScheduleOutlineProcessor := ⟨ck0, ⟨7, false⟩, 20240202, datesC5⟩

/-- Dates for the orphan scenario: the orphan sequence's own start is in the
future relative to `at_time = 20240115` of `pOrphReleased`. -/
def datesOrph : List ((UsageKey × String) × Int) :=
  [((keyCourse, "start"), 20240101), ((keyOrph, "start"), 20240201)]

def pOrphReleased : ScheduleOutlineProcessor := ⟨ck0, ⟨7, false⟩, 20240115, datesOrph⟩

def pOrphUnreleased : ScheduleOutlineProcessor := ⟨ck0, ⟨7, false⟩, 20231231, datesOrph⟩

/-- A store holding only a learning context row for `ck0`. -/
def sCtxOnly : Store := ⟨[⟨ck0, "Course T", 10, "v1"⟩], [], [], []⟩

def staffUser : UserT := ⟨1, true⟩

/-- An outline value carrying a deprecated course key (data.py's validator
would reject constructing it; outlines.py's own guard is what is under test). -/
def oOld : CourseOutlineData := ⟨ckOld, "Old Course", 0, "v0", [], [], ⟨∅, ∅⟩⟩

/-! ### Canonical row lists (what a successful write leaves for a context) -/

/-- The section rows `_update_sections` writes for the given sections, with
positions starting at `i`. -/
def secRowsFrom (o : CourseOutlineData) (i : Nat) :
    List CourseSectionData → List CourseSectionRow
  | [] => []
  | sec :: rest => secRowOf o i sec :: secRowsFrom o (i + 1) rest

/-- The join rows `_update_course_section_sequences` creates, in creation
order, with section positions starting at `i`. -/
def joinRowsFrom (o : CourseOutlineData) (i : Nat) :
    List CourseSectionData → List CourseSectionSequenceRow
  | [] => []
  | sec :: rest =>
      sec.sequences.map (fun sq => joinRowOf o i sec.usage_key (seqRowOf o.course_key sq) sq)
        ++ joinRowsFrom o (i + 1) rest

/-! ### Helper lemmas -/

theorem dictLookup_nil {β : Type} (k : UsageKey) : dictLookup (β := β) k [] = none := rfl

theorem dictLookup_cons {β : Type} (k' : UsageKey) (e : UsageKey × β) (l : List (UsageKey × β)) :
    dictLookup k' (e :: l) = if e.1 = k' then some e.2 else dictLookup k' l := by
  by_cases h : e.1 = k' <;> simp [dictLookup, List.find?_cons, h]

theorem dictLookup_dictInsert {β : Type} (k k' : UsageKey) (v : β) (l : List (UsageKey × β)) :
    dictLookup k' (dictInsert k v l) =
      if k' = k then some v else dictLookup k' l := by
  induction l with
  | nil =>
      by_cases h : k' = k
      · subst h; simp [dictInsert, dictLookup, List.find?_cons]
      · have h2 : ¬ k = k' := fun hh => h hh.symm
        simp [dictInsert, dictLookup, List.find?_cons, h, h2]
  | cons e rest ih =>
      by_cases he : e.1 = k
      · simp only [dictInsert, if_pos he]
        by_cases h : k' = k
        · subst h; simp [dictLookup_cons]
        · have h2 : ¬ k = k' := fun hh => h hh.symm
          rw [dictLookup_cons, if_neg h2, if_neg h, dictLookup_cons, he, if_neg h2]
      · simp only [dictInsert, if_neg he]
        rw [dictLookup_cons, dictLookup_cons, ih]
        by_cases hek : e.1 = k'
        · have hne : ¬ k' = k := fun hh => he (hek.trans hh)
          rw [if_pos hek, if_neg hne, if_pos hek]
        · rw [if_neg hek, if_neg hek]

theorem mem_foldl_union {α β : Type} [DecidableEq β] (f : α → Finset β)
    (l : List α) (init : Finset β) (k : β) :
    k ∈ l.foldl (fun acc x => acc ∪ f x) init ↔ k ∈ init ∨ ∃ x ∈ l, k ∈ f x := by
  induction l generalizing init with
  | nil => simp
  | cons a t ih =>
      rw [List.foldl_cons, ih]
      simp [Finset.mem_union, or_assoc]

theorem optMinList_pair_assoc (a b c : Option Int) :
    optMinList [optMinList [a, b], c] = optMinList [a, b, c] := by
  rcases a with - | x <;> rcases b with - | y <;> rcases c with - | z <;> rfl

theorem mem_sectionContribution (p : ScheduleOutlineProcessor) (sec : CourseSectionData)
    (k : UsageKey) :
    k ∈ p.sectionContribution sec ↔
      (∃ sq ∈ sec.sequences, sq.usage_key = k) ∧
        (p.gateOf sec.usage_key = true ∨ p.gateOf k = true) := by
  unfold ScheduleOutlineProcessor.sectionContribution
  by_cases hg : p.gateOf sec.usage_key = true
  · rw [if_pos hg]
    simp only [List.mem_toFinset, List.mem_map]
    constructor
    · rintro ⟨sq, hsq, hk⟩
      exact ⟨⟨sq, hsq, hk⟩, Or.inl hg⟩
    · rintro ⟨⟨sq, hsq, hk⟩, -⟩
      exact ⟨sq, hsq, hk⟩
  · rw [if_neg hg]
    simp only [List.mem_toFinset, List.mem_map, List.mem_filter]
    constructor
    · rintro ⟨sq, ⟨hsq, hgate⟩, hk⟩
      exact ⟨⟨sq, hsq, hk⟩, Or.inr (hk ▸ hgate)⟩
    · rintro ⟨⟨sq, hsq, hk⟩, hor⟩
      rcases hor with hgs | hgk
      · exact absurd hgs hg
      · exact ⟨sq, ⟨hsq, hk ▸ hgk⟩, hk⟩

theorem seqSchedule_lookup_inv (p : ScheduleOutlineProcessor) (se : Option Int)
    (P : UsageKey → ScheduleItemData → Prop)
    (sqs : List LearningSequenceData) (acc : List (UsageKey × ScheduleItemData))
    (hacc : ∀ k item, dictLookup k acc = some item → P k item)
    (hnew : ∀ sq ∈ sqs, P sq.usage_key
      ⟨sq.usage_key, p.fieldOf sq.usage_key "start",
        optMinList [se, p.fieldOf sq.usage_key "start"], p.fieldOf sq.usage_key "due"⟩) :
    ∀ k item,
      dictLookup k (ScheduleOutlineProcessor.seqSchedule p se sqs acc) = some item →
      P k item := by
  induction sqs generalizing acc with
  | nil => exact hacc
  | cons sq rest ih =>
      refine ih _ ?_ (fun x hx => hnew x (List.mem_cons_of_mem _ hx))
      intro k item h
      rw [dictLookup_dictInsert] at h
      by_cases hk : k = sq.usage_key
      · rw [if_pos hk] at h
        cases h
        exact hk ▸ hnew sq (List.mem_cons_self _ _)
      · rw [if_neg hk] at h
        exact hacc k item h

theorem secSchedule_lookup_inv (p : ScheduleOutlineProcessor) (cs : Option Int)
    (Psec Pseq : UsageKey → ScheduleItemData → Prop)
    (secs : List CourseSectionData)
    (secAcc seqAcc : List (UsageKey × ScheduleItemData))
    (hsecAcc : ∀ k item, dictLookup k secAcc = some item → Psec k item)
    (hseqAcc : ∀ k item, dictLookup k seqAcc = some item → Pseq k item)
    (hsecNew : ∀ sec ∈ secs, Psec sec.usage_key
      ⟨sec.usage_key, p.fieldOf sec.usage_key "start",
        optMinList [cs, p.fieldOf sec.usage_key "start"], p.fieldOf sec.usage_key "due"⟩)
    (hseqNew : ∀ sec ∈ secs, ∀ sq ∈ sec.sequences, Pseq sq.usage_key
      ⟨sq.usage_key, p.fieldOf sq.usage_key "start",
        optMinList [optMinList [cs, p.fieldOf sec.usage_key "start"],
          p.fieldOf sq.usage_key "start"],
        p.fieldOf sq.usage_key "due"⟩) :
    (∀ k item,
      dictLookup k (ScheduleOutlineProcessor.secSchedule p cs secs (secAcc, seqAcc)).1 = some item →
      Psec k item) ∧
    (∀ k item,
      dictLookup k (ScheduleOutlineProcessor.secSchedule p cs secs (secAcc, seqAcc)).2 = some item →
      Pseq k item) := by
  induction secs generalizing secAcc seqAcc with
  | nil => exact ⟨hsecAcc, hseqAcc⟩
  | cons sec rest ih =>
      refine ih _ _ ?_ ?_
        (fun x hx => hsecNew x (List.mem_cons_of_mem _ hx))
        (fun x hx => hseqNew x (List.mem_cons_of_mem _ hx))
      · intro k item h
        rw [dictLookup_dictInsert] at h
        by_cases hk : k = sec.usage_key
        · rw [if_pos hk] at h
          cases h
          exact hk ▸ hsecNew sec (List.mem_cons_self _ _)
        · rw [if_neg hk] at h
          exact hsecAcc k item h
      · exact seqSchedule_lookup_inv p _ Pseq sec.sequences seqAcc hseqAcc
          (hseqNew sec (List.mem_cons_self _ _))

/-! ### Claim theorems (schedule and visibility processors, remove, errors) -/

/-- C3: for every outline and schedule data, the schedule processor's set of
inaccessible sequences equals the reference definition: if the course-level
start is unset or `at_time` is before it, every sequence key of the flat index
is inaccessible; otherwise sequences under a section with a set future start
are inaccessible regardless of their own start, and other sequences are
inaccessible exactly when their own start is set and in the future. -/
theorem c3_inaccessible_sequences_matches_spec
    (p : ScheduleOutlineProcessor) (o : CourseOutlineData) :
    p.inaccessible_sequences o = scheduleInaccessibleSpec p o := by
  unfold ScheduleOutlineProcessor.inaccessible_sequences scheduleInaccessibleSpec
  cases h : p.courseNotStarted with
  | true => simp
  | false =>
      simp only [Bool.false_eq_true, if_false]
      apply Finset.ext
      intro k
      rw [mem_foldl_union]
      simp only [Finset.not_mem_empty, false_or, List.mem_toFinset, List.mem_filter,
        List.mem_flatMap, List.mem_map, List.any_eq_true, Bool.or_eq_true,
        Bool.and_eq_true, decide_eq_true_eq]
      constructor
      · rintro ⟨sec, hsec, hk⟩
        rw [mem_sectionContribution] at hk
        obtain ⟨⟨sq, hsq, hkk⟩, hor⟩ := hk
        exact ⟨⟨sec, hsec, sq, hsq, hkk⟩, sec, hsec, ⟨sq, hsq, hkk⟩, hor⟩
      · rintro ⟨-, sec, hsec, ⟨sq, hsq, hkk⟩, hor⟩
        exact ⟨sec, hsec, (mem_sectionContribution p sec k).2 ⟨⟨sq, hsq, hkk⟩, hor⟩⟩

/-- C4: every item of `schedule_data`'s sequences dict has
`effective_start = ` the minimum of the defined starts along the chain
course → section → sequence, and every item of its sections dict has
`effective_start = ` the minimum of the defined starts along course → section. -/
theorem c4_schedule_data_effective_start (p : ScheduleOutlineProcessor)
    (o : CourseOutlineData) (k : UsageKey) (item : ScheduleItemData) :
    (dictLookup k (p.schedule_data o).sequences = some item →
      ∃ sec ∈ o.sections, (∃ sq ∈ sec.sequences, sq.usage_key = k) ∧
        item.start = p.fieldOf k "start" ∧
        item.effective_start =
          chainEffectiveStart p.course_start (p.fieldOf sec.usage_key "start")
            (p.fieldOf k "start")) ∧
    (dictLookup k (p.schedule_data o).sections = some item →
      ∃ sec ∈ o.sections, sec.usage_key = k ∧
        item.start = p.fieldOf k "start" ∧
        item.effective_start = optMinList [p.course_start, p.fieldOf k "start"]) := by
  have main := secSchedule_lookup_inv p p.course_start
    (fun k item => ∃ sec ∈ o.sections, sec.usage_key = k ∧
      item.start = p.fieldOf k "start" ∧
      item.effective_start = optMinList [p.course_start, p.fieldOf k "start"])
    (fun k item => ∃ sec ∈ o.sections, (∃ sq ∈ sec.sequences, sq.usage_key = k) ∧
      item.start = p.fieldOf k "start" ∧
      item.effective_start =
        chainEffectiveStart p.course_start (p.fieldOf sec.usage_key "start")
          (p.fieldOf k "start"))
    o.sections [] []
    (fun k item h => absurd h (by simp [dictLookup_nil]))
    (fun k item h => absurd h (by simp [dictLookup_nil]))
    (fun sec hsec => ⟨sec, hsec, rfl, rfl, rfl⟩)
    (fun sec hsec sq hsq =>
      ⟨sec, hsec, ⟨sq, hsq, rfl⟩, rfl, optMinList_pair_assoc _ _ _⟩)
  exact ⟨fun h => main.2 k item h, fun h => main.1 k item h⟩

/-- Witness for C4 at a concrete input: the S1 item of the C5 scenario at
`at_time = 2024-02-02` has `start = 2024-02-01` and
`effective_start = 2024-01-01` (the chain minimum with the course start). -/
theorem c4_schedule_data_effective_start_witness :
    dictLookup keyS1 (pFeb02.schedule_data oA).sequences =
      some ⟨keyS1, some 20240201, some 20240101, none⟩ ∧
    ∃ sec ∈ oA.sections, (∃ sq ∈ sec.sequences, sq.usage_key = keyS1) ∧
      (ScheduleItemData.mk keyS1 (some 20240201) (some 20240101) none).start =
        pFeb02.fieldOf keyS1 "start" ∧
      (ScheduleItemData.mk keyS1 (some 20240201) (some 20240101) none).effective_start =
        chainEffectiveStart pFeb02.course_start (pFeb02.fieldOf keyA "start")
          (pFeb02.fieldOf keyS1 "start") := by
  refine ⟨by decide, ?_⟩
  have h := (c4_schedule_data_effective_start pFeb02 oA keyS1
    ⟨keyS1, some 20240201, some 20240101, none⟩).1 (by decide)
  obtain ⟨sec, hsec, hsq, hstart, heff⟩ := h
  have hsecA : sec = secA := by
    have := hsec
    simp only [oA, List.mem_singleton] at this
    exact this
  subst hsecA
  exact ⟨secA, hsec, hsq, hstart, heff⟩

/-- C2 (code bug): `CourseOutlineData.remove` is a placeholder that returns
the outline unchanged, so on the scenario input — section B hidden from TOC
containing sequence S2, removal set `{B, S2}` — S2 still appears in
`trimmed_outline.sequences`, contradicting the claimed excision semantics
(and the method's own docstring). -/
theorem c2_remove_placeholder_keeps_removed_keys :
    (oBS2.remove {keyB, keyS2}).sequences = oBS2.sequences ∧
    dictLookup keyS2 (oBS2.remove {keyB, keyS2}).sequences = some seqS2 ∧
    (oBS2.remove {keyB, keyS2}).sections = [secB] := by decide

/-- C5 (counterexample): in the scenario — `course_start = 2024-01-01`,
section A without a start, S1 `start = 2024-02-01`, `at_time = 2024-02-02` —
the code computes `effective_start(S1) = 2024-01-01` (the minimum of the
defined chain starts), not the claimed `2024-02-01`. -/
theorem c5_counterexample_effective_start :
    (dictLookup keyS1 (pFeb02.schedule_data oA).sequences).map (·.effective_start) =
      some (some 20240101) ∧
    (dictLookup keyS1 (pFeb02.schedule_data oA).sequences).map (·.effective_start) ≠
      some (some 20240201) := by decide

/-- C5 (amended): at `at_time = 2024-01-15`, S1 is visible (the schedule
processor removes nothing) but inaccessible; at `at_time = 2024-02-02` S1 is
accessible and `effective_start(S1) = 2024-01-01`, the minimum of the defined
starts along the chain (the earlier course start binds under the code's
minimum rule). -/
theorem c5_amended_scenario :
    keyS1 ∈ pJan15.inaccessible_sequences oA ∧
    pJan15.usage_keys_to_remove oA = ∅ ∧
    keyS1 ∉ pFeb02.inaccessible_sequences oA ∧
    (dictLookup keyS1 (pFeb02.schedule_data oA).sequences).map (·.effective_start) =
      some (some 20240101) := by decide

/-- C6 (code bug): for a staff identity, `get_user_course_outline` does not
bypass the processors — `has_staff_access` is hard-coded `False` — and the
non-staff path calls the schedule processor's `inaccessible_usage_keys`,
which is the unimplemented base-class method, so the derivation raises
`NotImplementedError` instead of returning the untrimmed outline. -/
theorem c6_staff_derivation_raises :
    get_user_course_outline ck0 staffUser 20240115 sCtxOnly datesC5 =
      .error .notImplementedError := by decide

/-- C7 (code bug): on the scenario outline (section B and sequence S2, both
flagged in the outline's visibility sets), the visibility processor's
`usage_keys_to_remove` raises `AttributeError` — it reads `sec.visibility` /
`seq.visibility`, attributes that data.py's `CourseSectionData` and
`LearningSequenceData` do not have — instead of returning the union
`{B, S2}`.  Its `inaccessible_sequences` is indeed always empty. -/
theorem c7_visibility_processor_attribute_error :
    VisibilityOutlineProcessor.usage_keys_to_remove oBS2 = .error .attributeError ∧
    VisibilityOutlineProcessor.usage_keys_to_remove oBS2 ≠ .ok {keyB, keyS2} ∧
    VisibilityOutlineProcessor.inaccessible_sequences oBS2 = ∅ := by decide

/-- C8: `get_course_outline` fails with the InvalidKey error exactly for
deprecated course keys, fails with `DoesNotExist` exactly for well-formed
keys with no stored learning context, and `replace_course_outline` fails with
the InvalidKey error on a deprecated key leaving the store unchanged. -/
theorem c8_error_taxonomy (ck : CourseKeyT) (s : Store) (o : CourseOutlineData) :
    (get_course_outline ck s = .error .valueError ↔ ck.deprecated = true) ∧
    (get_course_outline ck s = .error .doesNotExist ↔
      ck.deprecated = false ∧
        s.contexts.find? (fun r => decide (r.context_key = ck)) = none) ∧
    (o.course_key.deprecated = true → replace_course_outline o s = (s, some .valueError)) := by
  refine ⟨?_, ?_, ?_⟩
  · unfold get_course_outline
    by_cases h : ck.deprecated = true
    · simp [h]
    · rw [Bool.not_eq_true] at h
      simp only [h, Bool.false_eq_true, if_false]
      cases hf : s.contexts.find? (fun r => decide (r.context_key = ck)) <;> simp
  · unfold get_course_outline
    by_cases h : ck.deprecated = true
    · simp [h]
    · rw [Bool.not_eq_true] at h
      simp only [h, Bool.false_eq_true, if_false]
      cases hf : s.contexts.find? (fun r => decide (r.context_key = ck)) <;> simp
  · intro h
    unfold replace_course_outline
    simp [h]

/-- Witness for C8 at concrete inputs: a deprecated key makes the read and
the write fail with the InvalidKey error (write leaving the store as it was),
and a well-formed unknown key makes the read fail with `DoesNotExist`. -/
theorem c8_error_taxonomy_witness :
    ckOld.deprecated = true ∧
    get_course_outline ckOld sCtxOnly = .error .valueError ∧
    replace_course_outline oOld sCtxOnly = (sCtxOnly, some .valueError) ∧
    get_course_outline ck0 Store.empty = .error .doesNotExist :=
  ⟨by decide,
   (c8_error_taxonomy ckOld sCtxOnly oOld).1.2 (by decide),
   (c8_error_taxonomy ckOld sCtxOnly oOld).2.2 (by decide),
   (c8_error_taxonomy ck0 Store.empty oOld).2.1.2 ⟨by decide, by decide⟩⟩

/-- C10: a sequence present in the flat index but listed in no section is
never marked inaccessible once the course has a set, non-future start — even
if its own start is in the future — yet it is included in the inaccessible
set when the course start is unset or in the future. -/
theorem c10_orphan_sequences (p : ScheduleOutlineProcessor) (o : CourseOutlineData)
    (k : UsageKey) (hk : k ∈ o.seqKeys)
    (horph : ∀ sec ∈ o.sections, ∀ sq ∈ sec.sequences, sq.usage_key ≠ k) :
    ((p.course_start = none ∨ ∃ cs, p.course_start = some cs ∧ p.at_time < cs) →
      k ∈ p.inaccessible_sequences o) ∧
    (∀ cs, p.course_start = some cs → ¬ p.at_time < cs →
      k ∉ p.inaccessible_sequences o) := by
  constructor
  · intro hcond
    have hb : p.courseNotStarted = true := by
      unfold ScheduleOutlineProcessor.courseNotStarted
      rcases hcond with h | ⟨cs, h1, h2⟩
      · rw [h]
      · rw [h1]; simpa using h2
    unfold ScheduleOutlineProcessor.inaccessible_sequences
    simpa [hb] using hk
  · intro cs h1 h2
    have hb : p.courseNotStarted = false := by
      unfold ScheduleOutlineProcessor.courseNotStarted
      rw [h1]; simpa using h2
    unfold ScheduleOutlineProcessor.inaccessible_sequences
    simp only [hb, Bool.false_eq_true, if_false]
    rw [mem_foldl_union]
    rintro (h | ⟨sec, hsec, hmem⟩)
    · exact absurd h (Finset.not_mem_empty k)
    · rw [mem_sectionContribution] at hmem
      obtain ⟨⟨sq, hsq, hkk⟩, -⟩ := hmem
      exact horph sec hsec sq hsq hkk

/-- Witness for C10 at a concrete input: the orphan sequence (own start
2024-02-01) is not inaccessible at 2024-01-15 with course start 2024-01-01,
but is inaccessible at 2023-12-31. -/
theorem c10_orphan_sequences_witness :
    keyOrph ∈ oOrph.seqKeys ∧
    keyOrph ∉ pOrphReleased.inaccessible_sequences oOrph ∧
    keyOrph ∈ pOrphUnreleased.inaccessible_sequences oOrph :=
  ⟨by decide,
   (c10_orphan_sequences pOrphReleased oOrph keyOrph (by decide) (by decide)).2
     20240101 (by decide) (by decide),
   (c10_orphan_sequences pOrphUnreleased oOrph keyOrph (by decide) (by decide)).1
     (Or.inr ⟨20240101, by decide, by decide⟩)⟩

/-! ### Sorting lemmas -/

theorem insOrd_perm {α : Type} (key : α → Nat) (a : α) (l : List α) :
    List.Perm (insOrd key a l) (a :: l) := by
  induction l with
  | nil => rfl
  | cons x xs ih =>
      unfold insOrd
      by_cases h : key a ≤ key x
      · rw [if_pos h]
      · rw [if_neg h]
        exact (List.Perm.cons x ih).trans (List.Perm.swap a x xs)

theorem sortByKey_perm {α : Type} (key : α → Nat) (l : List α) :
    List.Perm (sortByKey key l) l := by
  induction l with
  | nil => rfl
  | cons x xs ih =>
      exact (insOrd_perm key x (sortByKey key xs)).trans (List.Perm.cons x ih)

theorem insOrd_sorted {α : Type} (key : α → Nat) (a : α) (l : List α)
    (hl : l.Pairwise (fun x y => key x ≤ key y)) :
    (insOrd key a l).Pairwise (fun x y => key x ≤ key y) := by
  induction l with
  | nil => simp [insOrd]
  | cons x xs ih =>
      unfold insOrd
      by_cases h : key a ≤ key x
      · rw [if_pos h]
        refine List.Pairwise.cons ?_ hl
        intro y hy
        rcases List.mem_cons.1 hy with rfl | hy
        · exact h
        · exact le_trans h (List.rel_of_pairwise_cons hl hy)
      · rw [if_neg h]
        refine List.Pairwise.cons ?_ (ih (List.Pairwise.of_cons hl))
        intro y hy
        have := (insOrd_perm key a xs).mem_iff.1 hy
        rcases List.mem_cons.1 this with rfl | hy'
        · exact le_of_not_le h
        · exact List.rel_of_pairwise_cons hl hy'

theorem sortByKey_sorted {α : Type} (key : α → Nat) (l : List α) :
    (sortByKey key l).Pairwise (fun x y => key x ≤ key y) := by
  induction l with
  | nil => simp [sortByKey]
  | cons x xs ih => exact insOrd_sorted key x (sortByKey key xs) ih

theorem insOrd_of_le {α : Type} (key : α → Nat) (a : α) (l : List α)
    (h : ∀ y ∈ l, key a ≤ key y) : insOrd key a l = a :: l := by
  cases l with
  | nil => rfl
  | cons x xs =>
      unfold insOrd
      rw [if_pos (h x (List.mem_cons_self x xs))]

theorem sortByKey_of_sorted {α : Type} (key : α → Nat) (l : List α)
    (hl : l.Pairwise (fun x y => key x ≤ key y)) : sortByKey key l = l := by
  induction l with
  | nil => rfl
  | cons x xs ih =>
      unfold sortByKey
      rw [ih (List.Pairwise.of_cons hl)]
      exact insOrd_of_le key x xs (fun y hy => List.rel_of_pairwise_cons hl hy)

/-! ### Generic upsert lemmas -/

theorem find?_map_upsert {α : Type} (p : α → Bool) (g : α → α) (t : α)
    (hg_pos : ∀ a, p a = true → g a = t) (hg_neg : ∀ a, p a = false → g a = a)
    (ht : p t = true) (l : List α) (hl : l.any p = true) :
    (l.map g).find? p = some t := by
  induction l with
  | nil => simp at hl
  | cons e rest ih =>
      rw [List.map_cons]
      cases he : p e with
      | true => rw [hg_pos e he, List.find?_cons_of_pos _ ht]
      | false =>
          rw [hg_neg e he, List.find?_cons_of_neg _ (by simp [he])]
          apply ih
          simpa [he] using hl

theorem find?_upsertContext (o : CourseOutlineData) (rows : List LearningContextRow) :
    (upsertContext o rows).find? (fun r => decide (r.context_key = o.course_key)) =
      some ⟨o.course_key, o.title, o.published_at, o.published_version⟩ := by
  unfold upsertContext
  by_cases h : rows.any (fun r => decide (r.context_key = o.course_key)) = true
  · rw [if_pos h]
    refine find?_map_upsert _ _ _ ?_ ?_ (by simp) rows h
    · intro a ha
      rw [if_pos ha]
      have := of_decide_eq_true ha
      cases a
      simp_all
    · intro a ha
      rw [if_neg (by simp [ha])]
  · rw [if_neg h, List.find?_append]
    have hn : rows.find? (fun r => decide (r.context_key = o.course_key)) = none := by
      rw [List.find?_eq_none]
      intro x hx hpx
      exact h (List.any_eq_true.2 ⟨x, hx, hpx⟩)
    rw [hn]
    simp

theorem mem_upsert {α : Type} (q : α → Bool) (upd : α → α) (c : α) (rows : List α)
    (hupd : ∀ a, q a = true → upd a = c) (r : α)
    (hr : r ∈ (if rows.any q then rows.map (fun a => if q a then upd a else a) else rows ++ [c])) :
    r = c ∨ (r ∈ rows ∧ q r = false) := by
  by_cases h : rows.any q = true
  · rw [if_pos h] at hr
    obtain ⟨r0, hr0, he⟩ := List.mem_map.1 hr
    by_cases hm : q r0 = true
    · left; rw [← he, if_pos hm]; exact hupd r0 hm
    · right
      rw [if_neg hm] at he
      subst he
      exact ⟨hr0, by revert hm; cases q r0 <;> simp⟩
  · rw [if_neg h] at hr
    rcases List.mem_append.1 hr with h1 | h1
    · right
      refine ⟨h1, ?_⟩
      by_contra hq
      exact h (List.any_eq_true.2 ⟨r, h1, by revert hq; cases q r <;> simp⟩)
    · left; simpa using h1

theorem mem_upsert_self {α : Type} (q : α → Bool) (upd : α → α) (c : α) (rows : List α)
    (hupd : ∀ a, q a = true → upd a = c) :
    c ∈ (if rows.any q then rows.map (fun a => if q a then upd a else a) else rows ++ [c]) := by
  by_cases h : rows.any q = true
  · rw [if_pos h]
    obtain ⟨r0, hr0, hq0⟩ := List.any_eq_true.1 h
    exact List.mem_map.2 ⟨r0, hr0, by rw [if_pos hq0]; exact hupd r0 hq0⟩
  · rw [if_neg h]
    exact List.mem_append.2 (Or.inr (by simp))

theorem mem_upsert_of_fix {α : Type} (q : α → Bool) (upd : α → α) (c : α) (rows : List α)
    (r : α) (hr : r ∈ rows) (hfix : q r = true → upd r = r) :
    r ∈ (if rows.any q then rows.map (fun a => if q a then upd a else a) else rows ++ [c]) := by
  by_cases h : rows.any q = true
  · rw [if_pos h]
    refine List.mem_map.2 ⟨r, hr, ?_⟩
    by_cases hq : q r = true
    · rw [if_pos hq]; exact hfix hq
    · rw [if_neg hq]
  · rw [if_neg h]
    exact List.mem_append.2 (Or.inl hr)

theorem filter_map_key_map_invariant {α γ : Type} (g : α → α) (p : α → Bool) (key : α → γ)
    (hg : ∀ a, p (g a) = p a ∧ key (g a) = key a) (rows : List α) :
    ((rows.map g).filter p).map key = (rows.filter p).map key := by
  induction rows with
  | nil => rfl
  | cons e rest ih =>
      obtain ⟨h1, h2⟩ := hg e
      rw [List.map_cons, List.filter_cons, List.filter_cons, h1]
      by_cases hpe : p e = true
      · rw [if_pos hpe, if_pos hpe]
        simp only [List.map_cons, h2, ih]
      · rw [if_neg hpe, if_neg hpe]
        exact ih

theorem upsert_nodup_keys {α γ : Type} (q : α → Bool) (upd : α → α) (c : α) (rows : List α)
    (p : α → Bool) (key : α → γ)
    (hpres : ∀ a, p (upd a) = p a ∧ key (upd a) = key a)
    (hpc : p c = true)
    (hfresh : ∀ r ∈ rows, q r = false → p r = true → key r ≠ key c)
    (hN : ((rows.filter p).map key).Nodup) :
    (((if rows.any q then rows.map (fun a => if q a then upd a else a) else rows ++ [c]).filter p).map key).Nodup := by
  by_cases h : rows.any q = true
  · rw [if_pos h]
    rw [filter_map_key_map_invariant (fun a => if q a then upd a else a) p key
      (fun a => by
        show p (if q a = true then upd a else a) = p a ∧
          key (if q a = true then upd a else a) = key a
        by_cases hq : q a = true
        · rw [if_pos hq]
          exact hpres a
        · rw [if_neg hq]
          exact ⟨rfl, rfl⟩) rows]
    exact hN
  · rw [if_neg h, List.filter_append, List.map_append]
    have hone : List.filter p [c] = [c] := by simp [hpc]
    rw [hone]
    simp only [List.map_cons, List.map_nil]
    rw [List.nodup_append]
    refine ⟨hN, List.nodup_singleton _, ?_⟩
    intro x hx
    obtain ⟨r, hrf, hrk⟩ := List.mem_map.1 hx
    obtain ⟨hrm, hrp⟩ := List.mem_filter.1 hrf
    have hqr : q r = false := by
      cases hq : q r
      · rfl
      · exact absurd (List.any_eq_true.2 ⟨r, hrm, hq⟩) h
    simp only [List.mem_singleton]
    intro hxc
    exact hfresh r hrm hqr hrp (by rw [hrk, hxc])

/-! ### Section table lemmas -/

theorem upsertSectionRow_hupd (row : CourseSectionRow) :
    ∀ a : CourseSectionRow, secRowMatch row.context_key row.usage_key a = true →
      ({ a with title := row.title, order := row.order,
                hide_from_toc := row.hide_from_toc,
                visible_to_staff_only := row.visible_to_staff_only } : CourseSectionRow) = row := by
  intro a ha
  obtain ⟨h1, h2⟩ := of_decide_eq_true ha
  cases a; cases row
  simp_all

theorem mem_upsertSectionRow (row : CourseSectionRow) (rows : List CourseSectionRow)
    (r : CourseSectionRow) (hr : r ∈ upsertSectionRow row rows) :
    r = row ∨ (r ∈ rows ∧ secRowMatch row.context_key row.usage_key r = false) :=
  mem_upsert _ _ row rows (upsertSectionRow_hupd row) r hr

theorem upsertSectionRow_mem_self (row : CourseSectionRow) (rows : List CourseSectionRow) :
    row ∈ upsertSectionRow row rows :=
  mem_upsert_self _ _ row rows (upsertSectionRow_hupd row)

theorem mem_upsertSectionRow_of_neg (row : CourseSectionRow) (rows : List CourseSectionRow)
    (r : CourseSectionRow) (hr : r ∈ rows)
    (hq : secRowMatch row.context_key row.usage_key r = false) :
    r ∈ upsertSectionRow row rows :=
  mem_upsert_of_fix _ _ row rows r hr (fun h => absurd h (by simp [hq]))

theorem upsertSectionRow_nodup (ck : CourseKeyT) (row : CourseSectionRow)
    (hck : row.context_key = ck) (rows : List CourseSectionRow)
    (hN : ((rows.filter (fun r => decide (r.context_key = ck))).map (·.usage_key)).Nodup) :
    (((upsertSectionRow row rows).filter (fun r => decide (r.context_key = ck))).map
      (·.usage_key)).Nodup := by
  refine upsert_nodup_keys (secRowMatch row.context_key row.usage_key) _ row rows
    (fun r => decide (r.context_key = ck)) (·.usage_key)
    (fun a => ⟨rfl, rfl⟩) (by simp [hck]) ?_ hN
  intro r hr hq hp hkey
  have : secRowMatch row.context_key row.usage_key r = true :=
    decide_eq_true ⟨by rw [of_decide_eq_true hp, hck], hkey⟩
  rw [this] at hq
  cases hq

theorem secRowOf_context (o : CourseOutlineData) (i : Nat) (sec : CourseSectionData) :
    (secRowOf o i sec).context_key = o.course_key := rfl

theorem secRowOf_key (o : CourseOutlineData) (i : Nat) (sec : CourseSectionData) :
    (secRowOf o i sec).usage_key = sec.usage_key := rfl

theorem secRowOf_order (o : CourseOutlineData) (i : Nat) (sec : CourseSectionData) :
    (secRowOf o i sec).order = i := rfl

theorem mem_secRowsFrom (o : CourseOutlineData) :
    ∀ (secs : List CourseSectionData) (i : Nat) (c : CourseSectionRow),
    c ∈ secRowsFrom o i secs →
    c.context_key = o.course_key ∧ c.usage_key ∈ secs.map (·.usage_key) ∧ i ≤ c.order
  | sec :: rest, i, c, hc => by
      rcases List.mem_cons.1 hc with rfl | hc'
      · exact ⟨rfl, by rw [List.map_cons]; exact List.mem_cons.2 (Or.inl rfl), le_refl _⟩
      · obtain ⟨h1, h2, h3⟩ := mem_secRowsFrom o rest (i + 1) c hc'
        exact ⟨h1, by simp [h2], le_trans (Nat.le_succ i) h3⟩

theorem secRowsFrom_keys (o : CourseOutlineData) :
    ∀ (secs : List CourseSectionData) (i : Nat),
    (secRowsFrom o i secs).map (·.usage_key) = secs.map (·.usage_key)
  | [], _ => rfl
  | sec :: rest, i => by
      simp only [secRowsFrom, List.map_cons, secRowsFrom_keys o rest (i + 1)]
      rfl

theorem secRowsFrom_orders (o : CourseOutlineData) :
    ∀ (secs : List CourseSectionData) (i : Nat),
    (secRowsFrom o i secs).Pairwise (fun a b => a.order < b.order)
  | [], _ => List.Pairwise.nil
  | sec :: rest, i => by
      refine List.Pairwise.cons ?_ (secRowsFrom_orders o rest (i + 1))
      intro c hc
      have := (mem_secRowsFrom o rest (i + 1) c hc).2.2
      calc (secRowOf o i sec).order = i := rfl
        _ < i + 1 := Nat.lt_succ_self i
        _ ≤ c.order := this

theorem updateSectionsFrom_shape (o : CourseOutlineData) :
    ∀ (secs : List CourseSectionData) (i : Nat) (rows : List CourseSectionRow)
      (r : CourseSectionRow),
    r ∈ updateSectionsFrom o i secs rows →
    (r ∈ rows ∧ (r.context_key = o.course_key → r.usage_key ∉ secs.map (·.usage_key))) ∨
    r ∈ secRowsFrom o i secs
  | [], i, rows, r, hr => Or.inl ⟨hr, by simp⟩
  | sec :: rest, i, rows, r, hr => by
      rcases updateSectionsFrom_shape o rest (i + 1) (upsertSectionRow (secRowOf o i sec) rows) r hr
        with ⟨hmem, hnk⟩ | hcan
      · rcases mem_upsertSectionRow _ _ r hmem with rfl | ⟨hmem0, hq⟩
        · exact Or.inr (List.mem_cons_self _ _)
        · refine Or.inl ⟨hmem0, fun hctx => ?_⟩
          rw [List.map_cons, List.mem_cons]
          rintro (hk | hk)
          · have : secRowMatch (secRowOf o i sec).context_key (secRowOf o i sec).usage_key r = true :=
              decide_eq_true ⟨by rw [hctx]; rfl, hk⟩
            rw [this] at hq
            cases hq
          · exact hnk hctx hk
      · exact Or.inr (List.mem_cons_of_mem _ hcan)

theorem updateSectionsFrom_preserve (o : CourseOutlineData) :
    ∀ (secs : List CourseSectionData) (i : Nat) (rows : List CourseSectionRow)
      (r : CourseSectionRow),
    r ∈ rows →
    (r.context_key = o.course_key → r.usage_key ∉ secs.map (·.usage_key)) →
    r ∈ updateSectionsFrom o i secs rows
  | [], i, rows, r, hr, _ => hr
  | sec :: rest, i, rows, r, hr, hnk => by
      refine updateSectionsFrom_preserve o rest (i + 1) _ r ?_ ?_
      · refine mem_upsertSectionRow_of_neg _ _ r hr ?_
        cases hq : secRowMatch (secRowOf o i sec).context_key (secRowOf o i sec).usage_key r
        · rfl
        · obtain ⟨h1, h2⟩ := of_decide_eq_true hq
          exact absurd (by
            rw [List.map_cons]
            exact List.mem_cons.2 (Or.inl (h2.trans (secRowOf_key o i sec)))) (hnk h1)
      · intro hctx hk
        exact hnk hctx (by simp [hk])

theorem updateSectionsFrom_presence (o : CourseOutlineData) :
    ∀ (secs : List CourseSectionData) (i : Nat) (rows : List CourseSectionRow),
    (secs.map (·.usage_key)).Nodup →
    ∀ c ∈ secRowsFrom o i secs, c ∈ updateSectionsFrom o i secs rows
  | sec :: rest, i, rows, hnd, c, hc => by
      rcases List.mem_cons.1 hc with rfl | hc'
      · refine updateSectionsFrom_preserve o rest (i + 1) _ _
          (upsertSectionRow_mem_self _ rows) ?_
        intro _ hk
        rw [List.map_cons, List.nodup_cons] at hnd
        exact hnd.1 (by simpa using hk)
      · exact updateSectionsFrom_presence o rest (i + 1) (upsertSectionRow (secRowOf o i sec) rows)
          ((List.nodup_cons.1 (by simpa using hnd)).2) c hc'

theorem updateSectionsFrom_nodup (o : CourseOutlineData) :
    ∀ (secs : List CourseSectionData) (i : Nat) (rows : List CourseSectionRow),
    ((rows.filter (fun r => decide (r.context_key = o.course_key))).map (·.usage_key)).Nodup →
    (((updateSectionsFrom o i secs rows).filter
      (fun r => decide (r.context_key = o.course_key))).map (·.usage_key)).Nodup
  | [], i, rows, hN => hN
  | sec :: rest, i, rows, hN =>
      updateSectionsFrom_nodup o rest (i + 1) _
        (upsertSectionRow_nodup o.course_key _ rfl rows hN)

theorem mem_deleteStaleSections (o : CourseOutlineData) (rows : List CourseSectionRow)
    (r : CourseSectionRow) :
    r ∈ deleteStaleSections o rows ↔
      r ∈ rows ∧ (r.context_key = o.course_key → r.usage_key ∈ o.sectionKeysList) := by
  unfold deleteStaleSections
  rw [List.mem_filter]
  constructor
  · rintro ⟨h1, h2⟩
    refine ⟨h1, fun hctx => ?_⟩
    by_contra hk
    rw [decide_eq_true hctx, decide_eq_false hk] at h2
    simp at h2
  · rintro ⟨h1, h2⟩
    refine ⟨h1, ?_⟩
    by_cases hctx : r.context_key = o.course_key
    · rw [decide_eq_true hctx, decide_eq_true (h2 hctx)]
      rfl
    · rw [decide_eq_false hctx]
      rfl

theorem updateSectionsTable_char (o : CourseOutlineData) (rows : List CourseSectionRow)
    (hrows : ((rows.filter (fun r => decide (r.context_key = o.course_key))).map
      (·.usage_key)).Nodup)
    (hsec : (o.sections.map (·.usage_key)).Nodup) :
    sortByKey (·.order)
      ((updateSectionsTable o rows).filter (fun r => decide (r.context_key = o.course_key))) =
      secRowsFrom o 0 o.sections := by
  have hmemF : ∀ r ∈ (updateSectionsTable o rows).filter
      (fun r => decide (r.context_key = o.course_key)), r ∈ secRowsFrom o 0 o.sections := by
    intro r hr
    obtain ⟨hr1, hr2⟩ := List.mem_filter.1 hr
    obtain ⟨hr3, hr4⟩ := (mem_deleteStaleSections o _ r).1 hr1
    have hctx : r.context_key = o.course_key := of_decide_eq_true hr2
    rcases updateSectionsFrom_shape o o.sections 0 rows r hr3 with ⟨-, hnk⟩ | hcan
    · exact absurd (hr4 hctx) (hnk hctx)
    · exact hcan
  have hmemC : ∀ c ∈ secRowsFrom o 0 o.sections,
      c ∈ (updateSectionsTable o rows).filter (fun r => decide (r.context_key = o.course_key)) := by
    intro c hc
    obtain ⟨h1, h2, -⟩ := mem_secRowsFrom o o.sections 0 c hc
    refine List.mem_filter.2 ⟨(mem_deleteStaleSections o _ c).2
      ⟨updateSectionsFrom_presence o o.sections 0 rows hsec c hc, fun _ => h2⟩, by simp [h1]⟩
  have hnodupKeysF : (((updateSectionsTable o rows).filter
      (fun r => decide (r.context_key = o.course_key))).map (·.usage_key)).Nodup := by
    have hsub : ((updateSectionsTable o rows).filter
        (fun r => decide (r.context_key = o.course_key))).Sublist
        ((updateSectionsFrom o 0 o.sections rows).filter
          (fun r => decide (r.context_key = o.course_key))) := by
      unfold updateSectionsTable deleteStaleSections
      exact List.Sublist.filter _ (List.filter_sublist _)
    exact List.Nodup.sublist (hsub.map _) (updateSectionsFrom_nodup o o.sections 0 rows hrows)
  have hnodupF : ((updateSectionsTable o rows).filter
      (fun r => decide (r.context_key = o.course_key))).Nodup :=
    List.Nodup.of_map _ hnodupKeysF
  have hnodupC : (secRowsFrom o 0 o.sections).Nodup :=
    List.Nodup.of_map (·.usage_key) (by rw [secRowsFrom_keys]; exact hsec)
  have hperm : ((updateSectionsTable o rows).filter
      (fun r => decide (r.context_key = o.course_key))).Perm (secRowsFrom o 0 o.sections) := by
    refine List.perm_of_nodup_nodup_toFinset_eq hnodupF hnodupC ?_
    apply Finset.ext
    intro r
    simp only [List.mem_toFinset]
    exact ⟨fun h => hmemF r h, fun h => hmemC r h⟩
  have hCs : (secRowsFrom o 0 o.sections).Pairwise (fun a b => a.order < b.order) :=
    secRowsFrom_orders o _ 0
  have hsort_perm : (sortByKey (·.order) ((updateSectionsTable o rows).filter
      (fun r => decide (r.context_key = o.course_key)))).Perm (secRowsFrom o 0 o.sections) :=
    (sortByKey_perm _ _).trans hperm
  have hne : (sortByKey (·.order) ((updateSectionsTable o rows).filter
      (fun r => decide (r.context_key = o.course_key)))).Pairwise
      (fun a b => a.order ≠ b.order) := by
    have hCne : (secRowsFrom o 0 o.sections).Pairwise (fun a b => a.order ≠ b.order) :=
      hCs.imp (fun h => Nat.ne_of_lt h)
    exact (List.Perm.pairwise_iff (fun h => Ne.symm h) hsort_perm).2 hCne
  have hsorted : (sortByKey (·.order) ((updateSectionsTable o rows).filter
      (fun r => decide (r.context_key = o.course_key)))).Pairwise
      (fun a b => a.order < b.order) := by
    have hle := sortByKey_sorted (·.order) ((updateSectionsTable o rows).filter
      (fun r => decide (r.context_key = o.course_key)))
    exact (hle.and hne).imp (fun h => lt_of_le_of_ne h.1 h.2)
  haveI : IsAntisymm CourseSectionRow (fun a b => a.order < b.order) :=
    ⟨fun a b h1 h2 => absurd (h1.trans h2) (lt_irrefl _)⟩
  exact List.eq_of_perm_of_sorted hsort_perm hsorted hCs

/-! ### Sequence table lemmas -/

theorem find?_unique {α : Type} (p : α → Bool) (l : List α) (c : α)
    (hc : c ∈ l) (hpc : p c = true) (huniq : ∀ r ∈ l, p r = true → r = c) :
    l.find? p = some c := by
  induction l with
  | nil => cases hc
  | cons e rest ih =>
      by_cases he : p e = true
      · rw [List.find?_cons_of_pos _ he, huniq e (List.mem_cons_self _ _) he]
      · rw [List.find?_cons_of_neg _ he]
        refine ih ?_ (fun r hr hpr => huniq r (List.mem_cons_of_mem _ hr) hpr)
        rcases List.mem_cons.1 hc with rfl | h
        · exact absurd hpc he
        · exact h

theorem dictLookup_some_mem_keys {β : Type} (k : UsageKey) (d : List (UsageKey × β)) (v : β)
    (h : dictLookup k d = some v) : k ∈ d.map Prod.fst := by
  unfold dictLookup at h
  cases hf : d.find? (fun e => decide (e.1 = k)) with
  | none => rw [hf] at h; cases h
  | some e =>
      have he1 : e ∈ d := List.mem_of_find?_eq_some hf
      have he2 : e.1 = k := by
        have hpe := List.find?_some hf
        simpa using hpe
      exact he2 ▸ List.mem_map.2 ⟨e, he1, rfl⟩

theorem upsertSequenceRow_hupd (ck : CourseKeyT) (sq : LearningSequenceData) :
    ∀ a : LearningSequenceRow, seqRowMatch ck sq.usage_key a = true →
      ({ a with title := sq.title } : LearningSequenceRow) = seqRowOf ck sq := by
  intro a ha
  obtain ⟨h1, h2⟩ := of_decide_eq_true ha
  cases a
  simp_all [seqRowOf]

theorem mem_upsertSequenceRow (ck : CourseKeyT) (sq : LearningSequenceData)
    (rows : List LearningSequenceRow) (r : LearningSequenceRow)
    (hr : r ∈ upsertSequenceRow ck sq rows) :
    r = seqRowOf ck sq ∨ (r ∈ rows ∧ seqRowMatch ck sq.usage_key r = false) :=
  mem_upsert _ _ (seqRowOf ck sq) rows (upsertSequenceRow_hupd ck sq) r hr

theorem upsertSequenceRow_mem_self (ck : CourseKeyT) (sq : LearningSequenceData)
    (rows : List LearningSequenceRow) :
    seqRowOf ck sq ∈ upsertSequenceRow ck sq rows :=
  mem_upsert_self _ _ (seqRowOf ck sq) rows (upsertSequenceRow_hupd ck sq)

theorem mem_upsertSequenceRow_of_fix (ck : CourseKeyT) (sq : LearningSequenceData)
    (rows : List LearningSequenceRow) (r : LearningSequenceRow) (hr : r ∈ rows)
    (hfix : seqRowMatch ck sq.usage_key r = true → r = seqRowOf ck sq) :
    r ∈ upsertSequenceRow ck sq rows := by
  refine mem_upsert_of_fix _ _ (seqRowOf ck sq) rows r hr (fun h => ?_)
  rw [hfix h]
  exact upsertSequenceRow_hupd ck sq _ (by rw [← hfix h]; exact h)

theorem updateSequencesList_shape (ck : CourseKeyT) :
    ∀ (refs : List LearningSequenceData) (rows : List LearningSequenceRow)
      (r : LearningSequenceRow),
    r ∈ updateSequencesList ck refs rows →
    (r ∈ rows ∧ ∀ sq ∈ refs, seqRowMatch ck sq.usage_key r = false) ∨
    (∃ sq ∈ refs, r = seqRowOf ck sq)
  | [], rows, r, hr => Or.inl ⟨hr, by simp⟩
  | sq :: rest, rows, r, hr => by
      rcases updateSequencesList_shape ck rest (upsertSequenceRow ck sq rows) r hr
        with ⟨hmem, hnk⟩ | ⟨sq', hsq', he⟩
      · rcases mem_upsertSequenceRow ck sq rows r hmem with rfl | ⟨hmem0, hq⟩
        · exact Or.inr ⟨sq, List.mem_cons_self _ _, rfl⟩
        · refine Or.inl ⟨hmem0, fun x hx => ?_⟩
          rcases List.mem_cons.1 hx with rfl | hx'
          · exact hq
          · exact hnk x hx'
      · exact Or.inr ⟨sq', List.mem_cons_of_mem _ hsq', he⟩

theorem updateSequencesList_preserve (ck : CourseKeyT) :
    ∀ (refs : List LearningSequenceData) (rows : List LearningSequenceRow)
      (r : LearningSequenceRow),
    r ∈ rows →
    (∀ sq ∈ refs, seqRowMatch ck sq.usage_key r = true → r = seqRowOf ck sq) →
    r ∈ updateSequencesList ck refs rows
  | [], rows, r, hr, _ => hr
  | sq :: rest, rows, r, hr, hfix =>
      updateSequencesList_preserve ck rest _ r
        (mem_upsertSequenceRow_of_fix ck sq rows r hr (hfix sq (List.mem_cons_self _ _)))
        (fun x hx => hfix x (List.mem_cons_of_mem _ hx))

theorem updateSequencesList_presence (ck : CourseKeyT) :
    ∀ (refs : List LearningSequenceData) (rows : List LearningSequenceRow),
    (∀ x ∈ refs, ∀ y ∈ refs, x.usage_key = y.usage_key → x = y) →
    ∀ sq ∈ refs, seqRowOf ck sq ∈ updateSequencesList ck refs rows
  | sq0 :: rest, rows, hcons, sq, hsq => by
      rcases List.mem_cons.1 hsq with rfl | hsq'
      · refine updateSequencesList_preserve ck rest _ _
          (upsertSequenceRow_mem_self ck sq rows) ?_
        intro x hx hm
        obtain ⟨-, h2⟩ := of_decide_eq_true hm
        have : x = sq := hcons x (List.mem_cons_of_mem _ hx) sq (List.mem_cons_self _ _)
          (by rw [← h2]; rfl)
        rw [this]
      · exact updateSequencesList_presence ck rest _
          (fun x hx y hy => hcons x (List.mem_cons_of_mem _ hx) y (List.mem_cons_of_mem _ hy))
          sq hsq'

theorem mem_deleteStaleSequences (o : CourseOutlineData) (rows : List LearningSequenceRow)
    (r : LearningSequenceRow) :
    r ∈ deleteStaleSequences o rows ↔
      r ∈ rows ∧ (r.context_key = o.course_key → r.usage_key ∈ o.dictKeysList) := by
  unfold deleteStaleSequences
  rw [List.mem_filter]
  constructor
  · rintro ⟨h1, h2⟩
    refine ⟨h1, fun hctx => ?_⟩
    by_contra hk
    rw [decide_eq_true hctx, decide_eq_false hk] at h2
    simp at h2
  · rintro ⟨h1, h2⟩
    refine ⟨h1, ?_⟩
    by_cases hctx : r.context_key = o.course_key
    · rw [decide_eq_true hctx, decide_eq_true (h2 hctx)]
      rfl
    · rw [decide_eq_false hctx]
      rfl

theorem updateSequencesTable_find (o : CourseOutlineData) (rows : List LearningSequenceRow)
    (hcons : ∀ sec ∈ o.sections, ∀ sq ∈ sec.sequences,
      dictLookup sq.usage_key o.sequences = some sq)
    (sq : LearningSequenceData) (hsq : sq ∈ o.referencedSeqs) :
    (updateSequencesTable o rows).find? (seqRowMatch o.course_key sq.usage_key) =
      some (seqRowOf o.course_key sq) := by
  have hlook : ∀ x ∈ o.referencedSeqs, dictLookup x.usage_key o.sequences = some x := by
    intro x hx
    obtain ⟨sec, hsec, hmem⟩ := List.mem_flatMap.1 hx
    exact hcons sec hsec x hmem
  have hkeycons : ∀ x ∈ o.referencedSeqs, ∀ y ∈ o.referencedSeqs,
      x.usage_key = y.usage_key → x = y := by
    intro x hx y hy hxy
    have h1 := hlook x hx
    have h2 := hlook y hy
    rw [hxy, h2] at h1
    exact (Option.some_inj.1 h1).symm
  refine find?_unique _ _ _ ?_ ?_ ?_
  · show seqRowOf o.course_key sq ∈ deleteStaleSequences o
      (updateSequencesList o.course_key o.referencedSeqs rows)
    rw [mem_deleteStaleSequences]
    refine ⟨updateSequencesList_presence o.course_key o.referencedSeqs rows hkeycons sq hsq,
      fun _ => ?_⟩
    exact dictLookup_some_mem_keys _ _ _ (hlook sq hsq)
  · exact decide_eq_true ⟨rfl, rfl⟩
  · intro r hr hpr
    obtain ⟨hr1, -⟩ := (mem_deleteStaleSequences o _ r).1 hr
    obtain ⟨h1, h2⟩ := of_decide_eq_true hpr
    rcases updateSequencesList_shape o.course_key o.referencedSeqs rows r hr1
      with ⟨-, hnm⟩ | ⟨sq', hsq', he⟩
    · have hfalse := hnm sq hsq
      have htrue : seqRowMatch o.course_key sq.usage_key r = true := decide_eq_true ⟨h1, h2⟩
      rw [htrue] at hfalse
      cases hfalse
    · have hk : sq'.usage_key = sq.usage_key := by rw [he] at h2; exact h2
      rw [hkeycons sq' hsq' sq hsq hk] at he
      exact he

/-! ### Section lookup and join creation lemmas -/

theorem updateSectionsTable_find (o : CourseOutlineData) (rows : List CourseSectionRow)
    (hsec : (o.sections.map (·.usage_key)).Nodup) (k : UsageKey) (hk : k ∈ o.sectionKeysList) :
    ∃ srow, (updateSectionsTable o rows).find? (secRowMatch o.course_key k) = some srow ∧
      srow.usage_key = k := by
  have hex : ∃ c ∈ updateSectionsTable o rows, secRowMatch o.course_key k c = true := by
    have hk' : k ∈ (secRowsFrom o 0 o.sections).map (·.usage_key) := by
      rw [secRowsFrom_keys]
      exact hk
    obtain ⟨c, hc, hck⟩ := List.mem_map.1 hk'
    refine ⟨c, ?_, ?_⟩
    · unfold updateSectionsTable
      rw [mem_deleteStaleSections]
      exact ⟨updateSectionsFrom_presence o o.sections 0 rows hsec c hc,
        fun _ => by rw [hck]; exact hk⟩
    · exact decide_eq_true ⟨(mem_secRowsFrom o o.sections 0 c hc).1, hck⟩
  cases hf : (updateSectionsTable o rows).find? (secRowMatch o.course_key k) with
  | none =>
      obtain ⟨c, hc, hmc⟩ := hex
      exact absurd hmc (List.find?_eq_none.1 hf c hc)
  | some srow =>
      refine ⟨srow, rfl, ?_⟩
      have := List.find?_some hf
      exact (of_decide_eq_true this).2

theorem pairwise_of_forall {α : Type} (R : α → α → Prop) (h : ∀ a b, R a b) :
    ∀ l : List α, l.Pairwise R
  | [] => List.Pairwise.nil
  | _ :: rest => List.Pairwise.cons (fun b _ => h _ b) (pairwise_of_forall R h rest)

theorem mem_joinRowsFrom (o : CourseOutlineData) :
    ∀ (secs : List CourseSectionData) (i : Nat) (r : CourseSectionSequenceRow),
    r ∈ joinRowsFrom o i secs →
    r.context_key = o.course_key ∧ i ≤ r.order ∧ r.section_key ∈ secs.map (·.usage_key)
  | sec :: rest, i, r, hr => by
      rcases List.mem_append.1 hr with h | h
      · obtain ⟨sq, hsq, he⟩ := List.mem_map.1 h
        subst he
        exact ⟨rfl, le_refl _, by rw [List.map_cons]; exact List.mem_cons.2 (Or.inl rfl)⟩
      · obtain ⟨h1, h2, h3⟩ := mem_joinRowsFrom o rest (i + 1) r h
        exact ⟨h1, le_trans (Nat.le_succ i) h2, by rw [List.map_cons]; exact List.mem_cons.2 (Or.inr h3)⟩

theorem joinRowsFrom_pairwise_le (o : CourseOutlineData) :
    ∀ (secs : List CourseSectionData) (i : Nat),
    (joinRowsFrom o i secs).Pairwise (fun a b => a.order ≤ b.order)
  | [], _ => List.Pairwise.nil
  | sec :: rest, i => by
      rw [show joinRowsFrom o i (sec :: rest) =
        sec.sequences.map (fun sq => joinRowOf o i sec.usage_key (seqRowOf o.course_key sq) sq)
          ++ joinRowsFrom o (i + 1) rest from rfl]
      rw [List.pairwise_append]
      refine ⟨?_, joinRowsFrom_pairwise_le o rest (i + 1), ?_⟩
      · rw [List.pairwise_map]
        exact pairwise_of_forall _ (fun a b => le_refl i) _
      · intro a ha b hb
        obtain ⟨sq, hsq, he⟩ := List.mem_map.1 ha
        have hb2 := (mem_joinRowsFrom o rest (i + 1) b hb).2.1
        rw [← he]
        exact le_trans (Nat.le_succ i) hb2

theorem upsertJoinRow_of_no_match (row : CourseSectionSequenceRow)
    (rows : List CourseSectionSequenceRow)
    (h : rows.any (joinRowMatch row.context_key row.section_key row.sequence.usage_key) = false) :
    upsertJoinRow row rows = rows ++ [row] := by
  unfold upsertJoinRow
  rw [if_neg (by simp [h])]

theorem joinsForSection_build (o : CourseOutlineData) (s4 : Store) (i : Nat) (skey : UsageKey) :
    ∀ (sqs : List LearningSequenceData) (rows : List CourseSectionSequenceRow),
    (∀ sq ∈ sqs, findSequenceRow s4 o.course_key sq.usage_key = some (seqRowOf o.course_key sq)) →
    (∀ r ∈ rows, ∀ sq ∈ sqs, joinRowMatch o.course_key skey sq.usage_key r = false) →
    (sqs.map (·.usage_key)).Nodup →
    joinsForSection o s4 i skey sqs rows =
      some (rows ++ sqs.map (fun sq => joinRowOf o i skey (seqRowOf o.course_key sq) sq))
  | [], rows, _, _, _ => by simp [joinsForSection]
  | sq :: rest, rows, hfindSeq, hno, hnd => by
      have hstep : joinsForSection o s4 i skey (sq :: rest) rows =
          joinsForSection o s4 i skey rest
            (upsertJoinRow (joinRowOf o i skey (seqRowOf o.course_key sq) sq) rows) := by
        rw [show joinsForSection o s4 i skey (sq :: rest) rows =
          (match findSequenceRow s4 o.course_key sq.usage_key with
            | none => none
            | some qrow =>
                joinsForSection o s4 i skey rest
                  (upsertJoinRow (joinRowOf o i skey qrow sq) rows)) from rfl,
          hfindSeq sq (List.mem_cons_self _ _)]
      have hups : upsertJoinRow (joinRowOf o i skey (seqRowOf o.course_key sq) sq) rows =
          rows ++ [joinRowOf o i skey (seqRowOf o.course_key sq) sq] := by
        refine upsertJoinRow_of_no_match _ rows ?_
        cases hany : rows.any (joinRowMatch (joinRowOf o i skey (seqRowOf o.course_key sq) sq).context_key
          (joinRowOf o i skey (seqRowOf o.course_key sq) sq).section_key
          (joinRowOf o i skey (seqRowOf o.course_key sq) sq).sequence.usage_key) with
        | false => rfl
        | true =>
            obtain ⟨r, hr, hm⟩ := List.any_eq_true.1 hany
            have hm2 : joinRowMatch o.course_key skey sq.usage_key r = true := hm
            rw [hno r hr sq (List.mem_cons_self _ _)] at hm2
            cases hm2
      rw [hstep, hups]
      rw [joinsForSection_build o s4 i skey rest
        (rows ++ [joinRowOf o i skey (seqRowOf o.course_key sq) sq])
        (fun x hx => hfindSeq x (List.mem_cons_of_mem _ hx))
        ?_ ((List.nodup_cons.1 (by simpa using hnd)).2)]
      · rw [List.append_assoc]
        rfl
      · intro r hr x hx
        rcases List.mem_append.1 hr with h | h
        · exact hno r h x (List.mem_cons_of_mem _ hx)
        · rw [List.mem_singleton.1 h]
          refine decide_eq_false ?_
          rintro ⟨-, -, h3⟩
          rw [List.map_cons, List.nodup_cons] at hnd
          have h3a : sq.usage_key = x.usage_key := h3
          exact hnd.1 (by rw [h3a]; exact List.mem_map.2 ⟨x, hx, rfl⟩)

theorem joinsFromSections_build (o : CourseOutlineData) (s4 : Store) :
    ∀ (secs : List CourseSectionData) (i : Nat) (rows : List CourseSectionSequenceRow),
    (∀ sec ∈ secs, ∃ srow, findSectionRow s4 o.course_key sec.usage_key = some srow ∧
      srow.usage_key = sec.usage_key) →
    (∀ sec ∈ secs, ∀ sq ∈ sec.sequences,
      findSequenceRow s4 o.course_key sq.usage_key = some (seqRowOf o.course_key sq)) →
    (∀ sec ∈ secs, (sec.sequences.map (·.usage_key)).Nodup) →
    (secs.map (·.usage_key)).Nodup →
    (∀ r ∈ rows, r.context_key = o.course_key → r.section_key ∉ secs.map (·.usage_key)) →
    joinsFromSections o s4 i secs rows = some (rows ++ joinRowsFrom o i secs)
  | [], i, rows, _, _, _, _, _ => by simp [joinsFromSections, joinRowsFrom]
  | sec :: rest, i, rows, hfindSec, hfindSeq, hseqnd, hsecnd, hno => by
      obtain ⟨srow, hsrow, hskey⟩ := hfindSec sec (List.mem_cons_self _ _)
      have hstep : joinsFromSections o s4 i (sec :: rest) rows =
          (match joinsForSection o s4 i srow.usage_key sec.sequences rows with
            | none => none
            | some rows' => joinsFromSections o s4 (i + 1) rest rows') := by
        rw [show joinsFromSections o s4 i (sec :: rest) rows =
          (match findSectionRow s4 o.course_key sec.usage_key with
            | none => none
            | some srow =>
                match joinsForSection o s4 i srow.usage_key sec.sequences rows with
                | none => none
                | some rows' => joinsFromSections o s4 (i + 1) rest rows') from rfl,
          hsrow]
      rw [hstep, hskey]
      rw [joinsForSection_build o s4 i sec.usage_key sec.sequences rows
        (hfindSeq sec (List.mem_cons_self _ _))
        (fun r hr sq hsq => ?_) (hseqnd sec (List.mem_cons_self _ _))]
      · show joinsFromSections o s4 (i + 1) rest
            (rows ++ sec.sequences.map
              (fun sq => joinRowOf o i sec.usage_key (seqRowOf o.course_key sq) sq)) =
          some (rows ++ joinRowsFrom o i (sec :: rest))
        rw [joinsFromSections_build o s4 rest (i + 1) _
          (fun x hx => hfindSec x (List.mem_cons_of_mem _ hx))
          (fun x hx => hfindSeq x (List.mem_cons_of_mem _ hx))
          (fun x hx => hseqnd x (List.mem_cons_of_mem _ hx))
          ((List.nodup_cons.1 (by simpa using hsecnd)).2) ?_]
        · rw [List.append_assoc]
          rfl
        · intro r hr hctx
          rcases List.mem_append.1 hr with h | h
          · intro hmem
            exact hno r h hctx (by rw [List.map_cons]; exact List.mem_cons.2 (Or.inr hmem))
          · obtain ⟨sq, hsq, he⟩ := List.mem_map.1 h
            subst he
            intro hmem
            rw [List.map_cons, List.nodup_cons] at hsecnd
            exact hsecnd.1 hmem
      · refine decide_eq_false ?_
        rintro ⟨hctx, hsk, -⟩
        exact hno r hr hctx (by rw [hsk, List.map_cons]; exact List.mem_cons.2 (Or.inl rfl))

/-! ### The write path, characterized -/

theorem replace_course_outline_success (o : CourseOutlineData) (s : Store)
    (hdep : o.course_key.deprecated = false)
    (hsecnd : (o.sections.map (·.usage_key)).Nodup)
    (hseqnd : ∀ sec ∈ o.sections, (sec.sequences.map (·.usage_key)).Nodup)
    (hcons : ∀ sec ∈ o.sections, ∀ sq ∈ sec.sequences,
      dictLookup sq.usage_key o.sequences = some sq) :
    replace_course_outline o s =
      ({ contexts := upsertContext o s.contexts
         course_sections := updateSectionsTable o s.course_sections
         learning_sequences := updateSequencesTable o s.learning_sequences
         section_sequences :=
           s.section_sequences.filter (fun r => !(decide (r.context_key = o.course_key)))
             ++ joinRowsFrom o 0 o.sections }, none) := by
  have hjoins : joinsFromSections o
      ({ contexts := upsertContext o s.contexts
         course_sections := updateSectionsTable o s.course_sections
         learning_sequences := updateSequencesTable o s.learning_sequences
         section_sequences :=
           s.section_sequences.filter (fun r => !(decide (r.context_key = o.course_key))) } : Store)
      0 o.sections
      (s.section_sequences.filter (fun r => !(decide (r.context_key = o.course_key)))) =
      some ((s.section_sequences.filter (fun r => !(decide (r.context_key = o.course_key))))
        ++ joinRowsFrom o 0 o.sections) := by
    refine joinsFromSections_build o _ o.sections 0 _ ?_ ?_ hseqnd hsecnd ?_
    · intro sec hsec
      exact updateSectionsTable_find o s.course_sections hsecnd sec.usage_key
        (List.mem_map.2 ⟨sec, hsec, rfl⟩)
    · intro sec hsec sq hsq
      exact updateSequencesTable_find o s.learning_sequences hcons sq
        (List.mem_flatMap.2 ⟨sec, hsec, hsq⟩)
    · intro r hr hctx
      obtain ⟨-, hr2⟩ := List.mem_filter.1 hr
      rw [decide_eq_true hctx] at hr2
      simp at hr2
  unfold replace_course_outline
  rw [hdep]
  simp only [Bool.false_eq_true, if_false]
  split
  next joins heq =>
    have h2 : some ((s.section_sequences.filter
        (fun r => !(decide (r.context_key = o.course_key)))) ++ joinRowsFrom o 0 o.sections) =
        some joins := hjoins.symm.trans heq
    have h3 := Option.some_inj.1 h2
    rw [← h3]
  next heq =>
    have h2 : some ((s.section_sequences.filter
        (fun r => !(decide (r.context_key = o.course_key)))) ++ joinRowsFrom o 0 o.sections) =
        none := hjoins.symm.trans heq
    cases h2

/-! ### Read path lemmas -/

theorem mapGetD_cons {β : Type} (k' : UsageKey) (e : UsageKey × List β)
    (m : List (UsageKey × List β)) :
    mapGetD (e :: m) k' = if e.1 = k' then e.2 else mapGetD m k' := by
  by_cases h : e.1 = k' <;> simp [mapGetD, List.find?_cons, h]

theorem mapGetD_nil {β : Type} (k : UsageKey) : mapGetD ([] : List (UsageKey × List β)) k = [] := rfl

theorem mapGetD_mapAppend {β : Type} (k k' : UsageKey) (v : β) (m : List (UsageKey × List β)) :
    mapGetD (mapAppend k v m) k' =
      if k' = k then mapGetD m k' ++ [v] else mapGetD m k' := by
  induction m with
  | nil =>
      by_cases h : k' = k
      · subst h
        simp [mapAppend, mapGetD, List.find?_cons]
      · have h2 : ¬ k = k' := fun hh => h hh.symm
        simp [mapAppend, mapGetD, List.find?_cons, h, h2]
  | cons e rest ih =>
      by_cases he : e.1 = k
      · rw [show mapAppend k v (e :: rest) = (e.1, e.2 ++ [v]) :: rest from by
          unfold mapAppend; rw [if_pos he]]
        by_cases h : k' = k
        · subst h
          rw [mapGetD_cons, mapGetD_cons, if_pos he, if_pos he]
          simp
        · rw [mapGetD_cons, mapGetD_cons, if_neg h]
          have : ¬ e.1 = k' := fun hh => h (hh ▸ he ▸ rfl)
          rw [if_neg this, if_neg this]
      · rw [show mapAppend k v (e :: rest) = e :: mapAppend k v rest from by
          rw [show mapAppend k v (e :: rest) =
            (if e.1 = k then (e.1, e.2 ++ [v]) :: rest else e :: mapAppend k v rest) from rfl,
            if_neg he]]
        rw [mapGetD_cons, mapGetD_cons, ih]
        by_cases hek : e.1 = k'
        · have hne : ¬ k' = k := fun hh => he (hek.trans hh)
          rw [if_pos hek, if_neg hne, if_pos hek]
        · rw [if_neg hek, if_neg hek]

theorem readJoins_step (r : CourseSectionSequenceRow) (rest : List CourseSectionSequenceRow)
    (acc : ReadAcc) :
    readJoins (r :: rest) acc = readJoins rest
      { sec_map := mapAppend r.section_key ⟨r.sequence.usage_key, r.sequence.title⟩ acc.sec_map
        seq_dict := dictInsert r.sequence.usage_key ⟨r.sequence.usage_key, r.sequence.title⟩
          acc.seq_dict
        hide := if r.hide_from_toc then insert r.sequence.usage_key acc.hide else acc.hide
        vtso := if r.visible_to_staff_only then insert r.sequence.usage_key acc.vtso
          else acc.vtso } := rfl

theorem readJoins_seq_dict_no_writer :
    ∀ (rows : List CourseSectionSequenceRow) (acc : ReadAcc) (k : UsageKey),
    (∀ r ∈ rows, r.sequence.usage_key ≠ k) →
    dictLookup k (readJoins rows acc).seq_dict = dictLookup k acc.seq_dict
  | [], _, _, _ => rfl
  | r :: rest, acc, k, h => by
      rw [readJoins_step,
        readJoins_seq_dict_no_writer rest _ k (fun x hx => h x (List.mem_cons_of_mem _ hx))]
      show dictLookup k (dictInsert r.sequence.usage_key _ acc.seq_dict) = _
      rw [dictLookup_dictInsert,
        if_neg (fun hk => h r (List.mem_cons_self _ _) hk.symm)]

theorem readJoins_seq_dict_writer :
    ∀ (rows : List CourseSectionSequenceRow) (acc : ReadAcc) (k : UsageKey)
      (v : LearningSequenceData),
    (∃ r ∈ rows, r.sequence.usage_key = k) →
    (∀ r ∈ rows, r.sequence.usage_key = k →
      (⟨r.sequence.usage_key, r.sequence.title⟩ : LearningSequenceData) = v) →
    dictLookup k (readJoins rows acc).seq_dict = some v
  | r :: rest, acc, k, v, hex, hall => by
      by_cases hrest : ∃ x ∈ rest, x.sequence.usage_key = k
      · exact readJoins_seq_dict_writer rest _ k v hrest
          (fun x hx => hall x (List.mem_cons_of_mem _ hx))
      · have hr : r.sequence.usage_key = k := by
          obtain ⟨x, hx, hk⟩ := hex
          rcases List.mem_cons.1 hx with rfl | hx'
          · exact hk
          · exact absurd ⟨x, hx', hk⟩ hrest
        rw [readJoins_step,
          readJoins_seq_dict_no_writer rest _ k (fun x hx hk => hrest ⟨x, hx, hk⟩)]
        show dictLookup k (dictInsert r.sequence.usage_key _ acc.seq_dict) = _
        rw [dictLookup_dictInsert, if_pos hr.symm, hall r (List.mem_cons_self _ _) hr]

theorem readJoins_sec_map :
    ∀ (rows : List CourseSectionSequenceRow) (acc : ReadAcc) (sKey : UsageKey),
    mapGetD (readJoins rows acc).sec_map sKey =
      mapGetD acc.sec_map sKey ++
        (rows.filter (fun r => decide (r.section_key = sKey))).map
          (fun r => (⟨r.sequence.usage_key, r.sequence.title⟩ : LearningSequenceData))
  | [], acc, sKey => by
      rw [show readJoins [] acc = acc from rfl]
      simp
  | r :: rest, acc, sKey => by
      rw [readJoins_step, readJoins_sec_map rest _ sKey]
      show mapGetD (mapAppend r.section_key _ acc.sec_map) sKey ++ _ = _
      rw [mapGetD_mapAppend, List.filter_cons]
      by_cases h : r.section_key = sKey
      · rw [if_pos (h ▸ rfl), if_pos (decide_eq_true h), List.map_cons, List.append_assoc]
        rfl
      · rw [if_neg (fun hh => h hh.symm), if_neg (by simp [h])]

theorem readJoins_hide :
    ∀ (rows : List CourseSectionSequenceRow) (acc : ReadAcc) (k : UsageKey),
    (k ∈ (readJoins rows acc).hide ↔
      k ∈ acc.hide ∨ ∃ r ∈ rows, r.hide_from_toc = true ∧ r.sequence.usage_key = k)
  | [], acc, k => by
      rw [show readJoins [] acc = acc from rfl]
      simp
  | r :: rest, acc, k => by
      rw [readJoins_step, readJoins_hide rest _ k]
      show (k ∈ (if r.hide_from_toc then insert r.sequence.usage_key acc.hide else acc.hide) ∨ _)
        ↔ _
      by_cases hf : r.hide_from_toc = true
      · rw [if_pos hf]
        simp only [Finset.mem_insert, hf]
        constructor
        · rintro ((rfl | h) | ⟨x, hx, h1, h2⟩)
          · exact Or.inr ⟨r, List.mem_cons_self _ _, hf, rfl⟩
          · exact Or.inl h
          · exact Or.inr ⟨x, List.mem_cons_of_mem _ hx, h1, h2⟩
        · rintro (h | ⟨x, hx, h1, h2⟩)
          · exact Or.inl (Or.inr h)
          · rcases List.mem_cons.1 hx with rfl | hx'
            · exact Or.inl (Or.inl h2.symm)
            · exact Or.inr ⟨x, hx', h1, h2⟩
      · rw [if_neg hf]
        constructor
        · rintro (h | ⟨x, hx, h1, h2⟩)
          · exact Or.inl h
          · exact Or.inr ⟨x, List.mem_cons_of_mem _ hx, h1, h2⟩
        · rintro (h | ⟨x, hx, h1, h2⟩)
          · exact Or.inl h
          · rcases List.mem_cons.1 hx with rfl | hx'
            · exact absurd h1 hf
            · exact Or.inr ⟨x, hx', h1, h2⟩

theorem readJoins_vtso :
    ∀ (rows : List CourseSectionSequenceRow) (acc : ReadAcc) (k : UsageKey),
    (k ∈ (readJoins rows acc).vtso ↔
      k ∈ acc.vtso ∨ ∃ r ∈ rows, r.visible_to_staff_only = true ∧ r.sequence.usage_key = k)
  | [], acc, k => by
      rw [show readJoins [] acc = acc from rfl]
      simp
  | r :: rest, acc, k => by
      rw [readJoins_step, readJoins_vtso rest _ k]
      show (k ∈ (if r.visible_to_staff_only then insert r.sequence.usage_key acc.vtso
        else acc.vtso) ∨ _) ↔ _
      by_cases hf : r.visible_to_staff_only = true
      · rw [if_pos hf]
        simp only [Finset.mem_insert, hf]
        constructor
        · rintro ((rfl | h) | ⟨x, hx, h1, h2⟩)
          · exact Or.inr ⟨r, List.mem_cons_self _ _, hf, rfl⟩
          · exact Or.inl h
          · exact Or.inr ⟨x, List.mem_cons_of_mem _ hx, h1, h2⟩
        · rintro (h | ⟨x, hx, h1, h2⟩)
          · exact Or.inl (Or.inr h)
          · rcases List.mem_cons.1 hx with rfl | hx'
            · exact Or.inl (Or.inl h2.symm)
            · exact Or.inr ⟨x, hx', h1, h2⟩
      · rw [if_neg hf]
        constructor
        · rintro (h | ⟨x, hx, h1, h2⟩)
          · exact Or.inl h
          · exact Or.inr ⟨x, List.mem_cons_of_mem _ hx, h1, h2⟩
        · rintro (h | ⟨x, hx, h1, h2⟩)
          · exact Or.inl h
          · rcases List.mem_cons.1 hx with rfl | hx'
            · exact absurd h1 hf
            · exact Or.inr ⟨x, hx', h1, h2⟩

theorem readSections_sections (m : List (UsageKey × List LearningSequenceData)) :
    ∀ (rows : List CourseSectionRow) (secs0 : List CourseSectionData)
      (h0 v0 : Finset UsageKey),
    (readSections m rows (secs0, h0, v0)).1 =
      secs0 ++ rows.map (fun r => (⟨r.usage_key, r.title, mapGetD m r.usage_key⟩ :
        CourseSectionData))
  | [], secs0, h0, v0 => by simp [readSections]
  | r :: rest, secs0, h0, v0 => by
      rw [show readSections m (r :: rest) (secs0, h0, v0) = readSections m rest
        (secs0 ++ [⟨r.usage_key, r.title, mapGetD m r.usage_key⟩],
         (if r.hide_from_toc then insert r.usage_key h0 else h0),
         (if r.visible_to_staff_only then insert r.usage_key v0 else v0)) from rfl]
      rw [readSections_sections m rest _ _ _, List.map_cons, List.append_assoc]
      rfl

theorem readSections_hide (m : List (UsageKey × List LearningSequenceData)) :
    ∀ (rows : List CourseSectionRow) (secs0 : List CourseSectionData)
      (h0 v0 : Finset UsageKey) (k : UsageKey),
    (k ∈ (readSections m rows (secs0, h0, v0)).2.1 ↔
      k ∈ h0 ∨ ∃ r ∈ rows, r.hide_from_toc = true ∧ r.usage_key = k)
  | [], secs0, h0, v0, k => by simp [readSections]
  | r :: rest, secs0, h0, v0, k => by
      rw [show readSections m (r :: rest) (secs0, h0, v0) = readSections m rest
        (secs0 ++ [⟨r.usage_key, r.title, mapGetD m r.usage_key⟩],
         (if r.hide_from_toc then insert r.usage_key h0 else h0),
         (if r.visible_to_staff_only then insert r.usage_key v0 else v0)) from rfl]
      rw [readSections_hide m rest _ _ _ k]
      by_cases hf : r.hide_from_toc = true
      · rw [if_pos hf]
        simp only [Finset.mem_insert]
        constructor
        · rintro ((rfl | h) | ⟨x, hx, h1, h2⟩)
          · exact Or.inr ⟨r, List.mem_cons_self _ _, hf, rfl⟩
          · exact Or.inl h
          · exact Or.inr ⟨x, List.mem_cons_of_mem _ hx, h1, h2⟩
        · rintro (h | ⟨x, hx, h1, h2⟩)
          · exact Or.inl (Or.inr h)
          · rcases List.mem_cons.1 hx with rfl | hx'
            · exact Or.inl (Or.inl h2.symm)
            · exact Or.inr ⟨x, hx', h1, h2⟩
      · rw [if_neg hf]
        constructor
        · rintro (h | ⟨x, hx, h1, h2⟩)
          · exact Or.inl h
          · exact Or.inr ⟨x, List.mem_cons_of_mem _ hx, h1, h2⟩
        · rintro (h | ⟨x, hx, h1, h2⟩)
          · exact Or.inl h
          · rcases List.mem_cons.1 hx with rfl | hx'
            · exact absurd h1 hf
            · exact Or.inr ⟨x, hx', h1, h2⟩

theorem readSections_vtso (m : List (UsageKey × List LearningSequenceData)) :
    ∀ (rows : List CourseSectionRow) (secs0 : List CourseSectionData)
      (h0 v0 : Finset UsageKey) (k : UsageKey),
    (k ∈ (readSections m rows (secs0, h0, v0)).2.2 ↔
      k ∈ v0 ∨ ∃ r ∈ rows, r.visible_to_staff_only = true ∧ r.usage_key = k)
  | [], secs0, h0, v0, k => by simp [readSections]
  | r :: rest, secs0, h0, v0, k => by
      rw [show readSections m (r :: rest) (secs0, h0, v0) = readSections m rest
        (secs0 ++ [⟨r.usage_key, r.title, mapGetD m r.usage_key⟩],
         (if r.hide_from_toc then insert r.usage_key h0 else h0),
         (if r.visible_to_staff_only then insert r.usage_key v0 else v0)) from rfl]
      rw [readSections_vtso m rest _ _ _ k]
      by_cases hf : r.visible_to_staff_only = true
      · rw [if_pos hf]
        simp only [Finset.mem_insert]
        constructor
        · rintro ((rfl | h) | ⟨x, hx, h1, h2⟩)
          · exact Or.inr ⟨r, List.mem_cons_self _ _, hf, rfl⟩
          · exact Or.inl h
          · exact Or.inr ⟨x, List.mem_cons_of_mem _ hx, h1, h2⟩
        · rintro (h | ⟨x, hx, h1, h2⟩)
          · exact Or.inl (Or.inr h)
          · rcases List.mem_cons.1 hx with rfl | hx'
            · exact Or.inl (Or.inl h2.symm)
            · exact Or.inr ⟨x, hx', h1, h2⟩
      · rw [if_neg hf]
        constructor
        · rintro (h | ⟨x, hx, h1, h2⟩)
          · exact Or.inl h
          · exact Or.inr ⟨x, List.mem_cons_of_mem _ hx, h1, h2⟩
        · rintro (h | ⟨x, hx, h1, h2⟩)
          · exact Or.inl h
          · rcases List.mem_cons.1 hx with rfl | hx'
            · exact absurd h1 hf
            · exact Or.inr ⟨x, hx', h1, h2⟩

theorem joinRowsFrom_shape (o : CourseOutlineData) :
    ∀ (secs : List CourseSectionData) (i : Nat) (r : CourseSectionSequenceRow),
    r ∈ joinRowsFrom o i secs →
    ∃ sec ∈ secs, ∃ sq ∈ sec.sequences, r.section_key = sec.usage_key ∧
      r.sequence = seqRowOf o.course_key sq ∧
      r.hide_from_toc = decide (sq.usage_key ∈ o.visibility.hide_from_toc) ∧
      r.visible_to_staff_only = decide (sq.usage_key ∈ o.visibility.visible_to_staff_only)
  | sec :: rest, i, r, hr => by
      rcases List.mem_append.1 hr with h | h
      · obtain ⟨sq, hsq, he⟩ := List.mem_map.1 h
        subst he
        exact ⟨sec, List.mem_cons_self _ _, sq, hsq, rfl, rfl, rfl, rfl⟩
      · obtain ⟨sec', hsec', sq, hsq, h1, h2, h3, h4⟩ := joinRowsFrom_shape o rest (i + 1) r h
        exact ⟨sec', List.mem_cons_of_mem _ hsec', sq, hsq, h1, h2, h3, h4⟩

theorem joinRowsFrom_writer (o : CourseOutlineData) :
    ∀ (secs : List CourseSectionData) (i : Nat) (sec : CourseSectionData)
      (sq : LearningSequenceData), sec ∈ secs → sq ∈ sec.sequences →
    ∃ j, joinRowOf o j sec.usage_key (seqRowOf o.course_key sq) sq ∈ joinRowsFrom o i secs
  | sec0 :: rest, i, sec, sq, hsec, hsq => by
      rcases List.mem_cons.1 hsec with rfl | hsec'
      · exact ⟨i, List.mem_append.2 (Or.inl (List.mem_map.2 ⟨sq, hsq, rfl⟩))⟩
      · obtain ⟨j, hj⟩ := joinRowsFrom_writer o rest (i + 1) sec sq hsec' hsq
        exact ⟨j, List.mem_append.2 (Or.inr hj)⟩

theorem secRowsFrom_shape (o : CourseOutlineData) :
    ∀ (secs : List CourseSectionData) (i : Nat) (r : CourseSectionRow),
    r ∈ secRowsFrom o i secs → ∃ sec ∈ secs, ∃ j, r = secRowOf o j sec
  | sec :: rest, i, r, hr => by
      rcases List.mem_cons.1 hr with rfl | hr'
      · exact ⟨sec, List.mem_cons_self _ _, i, rfl⟩
      · obtain ⟨sec', hsec', j, he⟩ := secRowsFrom_shape o rest (i + 1) r hr'
        exact ⟨sec', List.mem_cons_of_mem _ hsec', j, he⟩

theorem secRowsFrom_writer (o : CourseOutlineData) :
    ∀ (secs : List CourseSectionData) (i : Nat) (sec : CourseSectionData), sec ∈ secs →
    ∃ j, secRowOf o j sec ∈ secRowsFrom o i secs
  | sec0 :: rest, i, sec, hsec => by
      rcases List.mem_cons.1 hsec with rfl | hsec'
      · exact ⟨i, List.mem_cons_self _ _⟩
      · obtain ⟨j, hj⟩ := secRowsFrom_writer o rest (i + 1) sec hsec'
        exact ⟨j, List.mem_cons_of_mem _ hj⟩

theorem map_rebuild_id :
    ∀ l : List LearningSequenceData,
    l.map (fun sq => (⟨sq.usage_key, sq.title⟩ : LearningSequenceData)) = l
  | [] => rfl
  | a :: t => by rw [List.map_cons, map_rebuild_id t]

theorem joinRowsFrom_filter_section (o : CourseOutlineData) :
    ∀ (secs : List CourseSectionData) (i : Nat) (sec : CourseSectionData),
    (secs.map (·.usage_key)).Nodup → sec ∈ secs →
    ((joinRowsFrom o i secs).filter (fun r => decide (r.section_key = sec.usage_key))).map
      (fun r => (⟨r.sequence.usage_key, r.sequence.title⟩ : LearningSequenceData)) =
      sec.sequences
  | sec0 :: rest, i, sec, hnd, hsec => by
      rw [show joinRowsFrom o i (sec0 :: rest) =
        sec0.sequences.map (fun sq => joinRowOf o i sec0.usage_key (seqRowOf o.course_key sq) sq)
          ++ joinRowsFrom o (i + 1) rest from rfl]
      rw [List.filter_append, List.map_append]
      rw [List.map_cons, List.nodup_cons] at hnd
      rcases List.mem_cons.1 hsec with rfl | hsec'
      · have hblock : (sec.sequences.map
            (fun sq => joinRowOf o i sec.usage_key (seqRowOf o.course_key sq) sq)).filter
            (fun r => decide (r.section_key = sec.usage_key)) =
            sec.sequences.map (fun sq => joinRowOf o i sec.usage_key (seqRowOf o.course_key sq) sq) := by
          rw [List.filter_eq_self]
          intro a ha
          obtain ⟨sq, hsq, he⟩ := List.mem_map.1 ha
          subst he
          exact decide_eq_true rfl
        have hrest : (joinRowsFrom o (i + 1) rest).filter
            (fun r => decide (r.section_key = sec.usage_key)) = [] := by
          rw [List.filter_eq_nil_iff]
          intro a ha
          have h3 := (mem_joinRowsFrom o rest (i + 1) a ha).2.2
          intro hp
          have : a.section_key = sec.usage_key := of_decide_eq_true hp
          exact hnd.1 (this ▸ h3)
        rw [hblock, hrest, List.map_nil, List.append_nil, List.map_map]
        rw [show ((fun r : CourseSectionSequenceRow =>
          (⟨r.sequence.usage_key, r.sequence.title⟩ : LearningSequenceData)) ∘
          (fun sq => joinRowOf o i sec.usage_key (seqRowOf o.course_key sq) sq)) =
          (fun sq => (⟨sq.usage_key, sq.title⟩ : LearningSequenceData)) from rfl]
        exact map_rebuild_id sec.sequences
      · have hblock : (sec0.sequences.map
            (fun sq => joinRowOf o i sec0.usage_key (seqRowOf o.course_key sq) sq)).filter
            (fun r => decide (r.section_key = sec.usage_key)) = [] := by
          rw [List.filter_eq_nil_iff]
          intro a ha
          obtain ⟨sq, hsq, he⟩ := List.mem_map.1 ha
          subst he
          intro hp
          have h0 : sec0.usage_key = sec.usage_key := of_decide_eq_true hp
          exact hnd.1 (h0 ▸ List.mem_map.2 ⟨sec, hsec', rfl⟩)
        rw [hblock, List.map_nil, List.nil_append]
        exact joinRowsFrom_filter_section o rest (i + 1) sec hnd.2 hsec'

theorem storeWF_ctx_nodup (rows : List CourseSectionRow)
    (h : (rows.map (fun r => (r.context_key, r.usage_key))).Nodup) (ck : CourseKeyT) :
    ((rows.filter (fun r => decide (r.context_key = ck))).map (·.usage_key)).Nodup := by
  induction rows with
  | nil => simp
  | cons e rest ih =>
      rw [List.map_cons, List.nodup_cons] at h
      rw [List.filter_cons]
      by_cases hp : decide (e.context_key = ck) = true
      · rw [if_pos hp, List.map_cons, List.nodup_cons]
        refine ⟨?_, ih h.2⟩
        intro hk
        obtain ⟨r, hr, hrk⟩ := List.mem_map.1 hk
        obtain ⟨hrm, hrp⟩ := List.mem_filter.1 hr
        have hectx : e.context_key = ck := of_decide_eq_true hp
        have hrctx : r.context_key = ck := of_decide_eq_true hrp
        apply h.1
        refine List.mem_map.2 ⟨r, hrm, ?_⟩
        rw [hrctx, hectx, hrk]
      · rw [if_neg hp]
        exact ih h.2

theorem secRowsFrom_map_reader (o : CourseOutlineData)
    (m : List (UsageKey × List LearningSequenceData)) :
    ∀ (secs : List CourseSectionData) (i : Nat),
    (∀ sec ∈ secs, mapGetD m sec.usage_key = sec.sequences) →
    (secRowsFrom o i secs).map
      (fun r => (⟨r.usage_key, r.title, mapGetD m r.usage_key⟩ : CourseSectionData)) = secs
  | [], _, _ => rfl
  | sec :: rest, i, h => by
      rw [show secRowsFrom o i (sec :: rest) =
        secRowOf o i sec :: secRowsFrom o (i + 1) rest from rfl, List.map_cons,
        secRowsFrom_map_reader o m rest (i + 1) (fun x hx => h x (List.mem_cons_of_mem _ hx))]
      show (⟨sec.usage_key, sec.title, mapGetD m sec.usage_key⟩ : CourseSectionData) :: rest =
        sec :: rest
      rw [h sec (List.mem_cons_self _ _)]

theorem get_course_outline_char (ck : CourseKeyT) (s' : Store) (hdep : ck.deprecated = false)
    (lc : LearningContextRow)
    (hlc : s'.contexts.find? (fun r => decide (r.context_key = ck)) = some lc)
    (secModels : List CourseSectionRow)
    (hsecM : sortByKey (fun r => r.order)
      (s'.course_sections.filter (fun r => decide (r.context_key = ck))) = secModels)
    (ssModels : List CourseSectionSequenceRow)
    (hssM : sortByKey (fun r => r.order)
      (s'.section_sequences.filter (fun r => decide (r.context_key = ck))) = ssModels) :
    get_course_outline ck s' = Except.ok
      { course_key := lc.context_key
        title := lc.title
        published_at := lc.published_at
        published_version := lc.published_version
        sections := (readSections (readJoins ssModels ⟨[], [], ∅, ∅⟩).sec_map secModels
          ([], (readJoins ssModels ⟨[], [], ∅, ∅⟩).hide,
           (readJoins ssModels ⟨[], [], ∅, ∅⟩).vtso)).1
        sequences := (readJoins ssModels ⟨[], [], ∅, ∅⟩).seq_dict
        visibility :=
          ⟨(readSections (readJoins ssModels ⟨[], [], ∅, ∅⟩).sec_map secModels
            ([], (readJoins ssModels ⟨[], [], ∅, ∅⟩).hide,
             (readJoins ssModels ⟨[], [], ∅, ∅⟩).vtso)).2.1,
           (readSections (readJoins ssModels ⟨[], [], ∅, ∅⟩).sec_map secModels
            ([], (readJoins ssModels ⟨[], [], ∅, ∅⟩).hide,
             (readJoins ssModels ⟨[], [], ∅, ∅⟩).vtso)).2.2⟩ } := by
  unfold get_course_outline
  rw [hdep]
  simp only [Bool.false_eq_true, if_false]
  rw [hlc, hsecM, hssM]

theorem roundtrip_main (o : CourseOutlineData) (s : Store) (hS : StoreWF s) (hO : OutlineWF o) :
    ∃ s', replace_course_outline o s = (s', none) ∧
      ∃ res, get_course_outline o.course_key s' = Except.ok res ∧
        res.course_key = o.course_key ∧ res.title = o.title ∧
        res.published_at = o.published_at ∧ res.published_version = o.published_version ∧
        res.sections = o.sections ∧
        (∀ k, dictLookup k res.sequences =
          if ∃ sec ∈ o.sections, ∃ sq ∈ sec.sequences, sq.usage_key = k
          then dictLookup k o.sequences else none) ∧
        (∀ k, k ∈ res.visibility.hide_from_toc ↔ k ∈ o.visibility.hide_from_toc ∧
          (k ∈ o.sectionKeysList ∨ ∃ sec ∈ o.sections, ∃ sq ∈ sec.sequences, sq.usage_key = k)) ∧
        (∀ k, k ∈ res.visibility.visible_to_staff_only ↔
          k ∈ o.visibility.visible_to_staff_only ∧
          (k ∈ o.sectionKeysList ∨ ∃ sec ∈ o.sections, ∃ sq ∈ sec.sequences, sq.usage_key = k)) := by
  obtain ⟨hdep, hsecnd, hseqnd, hcons, -, -⟩ := hO
  refine ⟨_, replace_course_outline_success o s hdep hsecnd hseqnd hcons, ?_⟩
  have hctxnd := storeWF_ctx_nodup s.course_sections hS o.course_key
  have hsecM : sortByKey (fun r => r.order)
      ((updateSectionsTable o s.course_sections).filter
        (fun r => decide (r.context_key = o.course_key))) = secRowsFrom o 0 o.sections :=
    updateSectionsTable_char o s.course_sections hctxnd hsecnd
  have hssM : sortByKey (fun r => r.order)
      (((s.section_sequences.filter (fun r => !(decide (r.context_key = o.course_key))))
        ++ joinRowsFrom o 0 o.sections).filter
        (fun r => decide (r.context_key = o.course_key))) = joinRowsFrom o 0 o.sections := by
    have hA : (s.section_sequences.filter
        (fun r => !(decide (r.context_key = o.course_key)))).filter
        (fun r => decide (r.context_key = o.course_key)) = [] := by
      rw [List.filter_eq_nil_iff]
      intro a ha hp
      obtain ⟨-, ha2⟩ := List.mem_filter.1 ha
      rw [hp] at ha2
      simp at ha2
    have hB : (joinRowsFrom o 0 o.sections).filter
        (fun r => decide (r.context_key = o.course_key)) = joinRowsFrom o 0 o.sections := by
      rw [List.filter_eq_self]
      intro a ha
      exact decide_eq_true (mem_joinRowsFrom o o.sections 0 a ha).1
    rw [List.filter_append, hA, hB, List.nil_append]
    exact sortByKey_of_sorted _ _ (joinRowsFrom_pairwise_le o o.sections 0)
  have hchar := get_course_outline_char o.course_key
    ({ contexts := upsertContext o s.contexts
       course_sections := updateSectionsTable o s.course_sections
       learning_sequences := updateSequencesTable o s.learning_sequences
       section_sequences :=
         s.section_sequences.filter (fun r => !(decide (r.context_key = o.course_key)))
           ++ joinRowsFrom o 0 o.sections } : Store) hdep
    ⟨o.course_key, o.title, o.published_at, o.published_version⟩
    (find?_upsertContext o s.contexts)
    (secRowsFrom o 0 o.sections) hsecM
    (joinRowsFrom o 0 o.sections) hssM
  refine ⟨_, hchar, rfl, rfl, rfl, rfl, ?_, ?_, ?_, ?_⟩
  · rw [readSections_sections, List.nil_append]
    refine secRowsFrom_map_reader o _ o.sections 0 ?_
    intro sec hsec
    rw [readJoins_sec_map]
    rw [show mapGetD (ReadAcc.mk [] [] ∅ ∅).sec_map sec.usage_key = [] from rfl, List.nil_append]
    exact joinRowsFrom_filter_section o o.sections 0 sec hsecnd hsec
  · intro k
    by_cases hk : ∃ sec ∈ o.sections, ∃ sq ∈ sec.sequences, sq.usage_key = k
    · rw [if_pos hk]
      obtain ⟨sec, hsec, sq, hsq, hkey⟩ := hk
      have hdict : dictLookup k o.sequences = some sq := by
        rw [← hkey]
        exact hcons sec hsec sq hsq
      rw [hdict]
      refine readJoins_seq_dict_writer _ _ k sq ?_ ?_
      · obtain ⟨j, hj⟩ := joinRowsFrom_writer o o.sections 0 sec sq hsec hsq
        exact ⟨_, hj, hkey⟩
      · intro r hr hrk
        obtain ⟨sec', hsec', sq', hsq', -, hseq, -, -⟩ := joinRowsFrom_shape o o.sections 0 r hr
        have hkey' : sq'.usage_key = k := by
          rw [hseq] at hrk
          exact hrk
        have hd' : dictLookup k o.sequences = some sq' := by
          rw [← hkey']
          exact hcons sec' hsec' sq' hsq'
        have hsq'eq : sq' = sq := Option.some_inj.1 (hd'.symm.trans hdict)
        rw [hseq]
        show (⟨sq'.usage_key, sq'.title⟩ : LearningSequenceData) = sq
        rw [← hsq'eq]
    · rw [if_neg hk]
      have hnw : ∀ r ∈ joinRowsFrom o 0 o.sections, r.sequence.usage_key ≠ k := by
        intro r hr hrk
        obtain ⟨sec', hsec', sq', hsq', -, hseq, -, -⟩ := joinRowsFrom_shape o o.sections 0 r hr
        refine hk ⟨sec', hsec', sq', hsq', ?_⟩
        rw [hseq] at hrk
        exact hrk
      rw [readJoins_seq_dict_no_writer _ _ k hnw]
      rfl
  · intro k
    rw [readSections_hide, readJoins_hide]
    simp only [Finset.not_mem_empty, false_or]
    constructor
    · rintro (⟨r, hr, hflag, hrk⟩ | ⟨r, hr, hflag, hrk⟩)
      · obtain ⟨sec', hsec', sq', hsq', -, hseq, hh, -⟩ := joinRowsFrom_shape o o.sections 0 r hr
        have hkey' : sq'.usage_key = k := by
          rw [hseq] at hrk
          exact hrk
        have hmem : sq'.usage_key ∈ o.visibility.hide_from_toc := by
          rw [hh] at hflag
          exact of_decide_eq_true hflag
        exact ⟨hkey' ▸ hmem, Or.inr ⟨sec', hsec', sq', hsq', hkey'⟩⟩
      · obtain ⟨sec', hsec', j, he⟩ := secRowsFrom_shape o o.sections 0 r hr
        subst he
        have hkk : sec'.usage_key = k := hrk
        have hmem : sec'.usage_key ∈ o.visibility.hide_from_toc := of_decide_eq_true hflag
        refine ⟨hkk ▸ hmem, Or.inl ?_⟩
        rw [← hkk]
        exact List.mem_map.2 ⟨sec', hsec', rfl⟩
    · rintro ⟨hvis, hloc | ⟨sec, hsec, sq, hsq, hkey⟩⟩
      · obtain ⟨sec, hsec, hkk⟩ := List.mem_map.1 hloc
        obtain ⟨j, hj⟩ := secRowsFrom_writer o o.sections 0 sec hsec
        refine Or.inr ⟨secRowOf o j sec, hj, ?_, hkk⟩
        exact decide_eq_true (by rw [hkk]; exact hvis)
      · obtain ⟨j, hj⟩ := joinRowsFrom_writer o o.sections 0 sec sq hsec hsq
        refine Or.inl ⟨_, hj, ?_, hkey⟩
        exact decide_eq_true (by rw [hkey]; exact hvis)
  · intro k
    rw [readSections_vtso, readJoins_vtso]
    simp only [Finset.not_mem_empty, false_or]
    constructor
    · rintro (⟨r, hr, hflag, hrk⟩ | ⟨r, hr, hflag, hrk⟩)
      · obtain ⟨sec', hsec', sq', hsq', -, hseq, -, hh⟩ := joinRowsFrom_shape o o.sections 0 r hr
        have hkey' : sq'.usage_key = k := by
          rw [hseq] at hrk
          exact hrk
        have hmem : sq'.usage_key ∈ o.visibility.visible_to_staff_only := by
          rw [hh] at hflag
          exact of_decide_eq_true hflag
        exact ⟨hkey' ▸ hmem, Or.inr ⟨sec', hsec', sq', hsq', hkey'⟩⟩
      · obtain ⟨sec', hsec', j, he⟩ := secRowsFrom_shape o o.sections 0 r hr
        subst he
        have hkk : sec'.usage_key = k := hrk
        have hmem : sec'.usage_key ∈ o.visibility.visible_to_staff_only := of_decide_eq_true hflag
        refine ⟨hkk ▸ hmem, Or.inl ?_⟩
        rw [← hkk]
        exact List.mem_map.2 ⟨sec', hsec', rfl⟩
    · rintro ⟨hvis, hloc | ⟨sec, hsec, sq, hsq, hkey⟩⟩
      · obtain ⟨sec, hsec, hkk⟩ := List.mem_map.1 hloc
        obtain ⟨j, hj⟩ := secRowsFrom_writer o o.sections 0 sec hsec
        refine Or.inr ⟨secRowOf o j sec, hj, ?_, hkk⟩
        exact decide_eq_true (by rw [hkk]; exact hvis)
      · obtain ⟨j, hj⟩ := joinRowsFrom_writer o o.sections 0 sec sq hsec hsq
        refine Or.inl ⟨_, hj, ?_, hkey⟩
        exact decide_eq_true (by rw [hkey]; exact hvis)

/-- C1 (counterexample): the write/read round-trip loses index-only sequences.
`oOrph` is well-formed per the data model (which explicitly allows sequences
that appear in the flat index without being in any section), yet after
`replace_course_outline` + `get_course_outline` the orphan key maps to
nothing: only sequences referenced by sections are ever persisted. -/
theorem c1_counterexample_orphan_lost :
    OutlineWF oOrph ∧
    dictLookup keyOrph oOrph.sequences = some seqOrph ∧
    (get_course_outline ck0 (replace_course_outline oOrph Store.empty).1).map
      (fun r => dictLookup keyOrph r.sequences) = .ok none := by decide

/-- C1 (amended): for every well-keyed store and well-formed outline in which
every entry of the flat `sequences` index is referenced by some section,
`get_course_outline` after `replace_course_outline` succeeds and returns an
outline equal to the input in its sections, its flat sequences index (as a
key-to-value mapping), and its visibility sets — with no cache present. -/
theorem c1_roundtrip_amended (o : CourseOutlineData) (s : Store)
    (hS : StoreWF s) (hO : OutlineWF o) (hNO : NoOrphans o) :
    ∃ s', replace_course_outline o s = (s', none) ∧
      ∃ res, get_course_outline o.course_key s' = Except.ok res ∧
        res.sections = o.sections ∧
        (∀ k, dictLookup k res.sequences = dictLookup k o.sequences) ∧
        res.visibility = o.visibility := by
  have hO' := hO
  obtain ⟨s', hrep, res, hget, -, -, -, -, hsec, hseq, hhide, hvtso⟩ := roundtrip_main o s hS hO
  refine ⟨s', hrep, res, hget, hsec, ?_, ?_⟩
  · intro k
    rw [hseq k]
    by_cases hk : ∃ sec ∈ o.sections, ∃ sq ∈ sec.sequences, sq.usage_key = k
    · rw [if_pos hk]
    · rw [if_neg hk]
      cases hl : dictLookup k o.sequences with
      | none => rfl
      | some v =>
          exfalso
          unfold dictLookup at hl
          cases hf : o.sequences.find? (fun e => decide (e.1 = k)) with
          | none => rw [hf] at hl; cases hl
          | some e =>
              have he1 : e ∈ o.sequences := List.mem_of_find?_eq_some hf
              have he2 : e.1 = k := by
                have := List.find?_some hf
                simpa using this
              obtain ⟨sec, hsec', sq, hsq, hkk⟩ := hNO e he1
              exact hk ⟨sec, hsec', sq, hsq, by rw [hkk, he2]⟩
  · obtain ⟨-, -, -, -, hvisH, hvisV⟩ := hO'
    have h1 : res.visibility.hide_from_toc = o.visibility.hide_from_toc := by
      apply Finset.ext
      intro k
      rw [hhide k]
      constructor
      · exact fun h => h.1
      · intro h
        refine ⟨h, ?_⟩
        rcases hvisH k h with hkey | hdict
        · exact Or.inl hkey
        · right
          obtain ⟨e, he, hke⟩ := List.mem_map.1 hdict
          obtain ⟨sec, hsec', sq, hsq, hkk⟩ := hNO e he
          exact ⟨sec, hsec', sq, hsq, by rw [hkk, hke]⟩
    have h2 : res.visibility.visible_to_staff_only = o.visibility.visible_to_staff_only := by
      apply Finset.ext
      intro k
      rw [hvtso k]
      constructor
      · exact fun h => h.1
      · intro h
        refine ⟨h, ?_⟩
        rcases hvisV k h with hkey | hdict
        · exact Or.inl hkey
        · right
          obtain ⟨e, he, hke⟩ := List.mem_map.1 hdict
          obtain ⟨sec, hsec', sq, hsq, hkk⟩ := hNO e he
          exact ⟨sec, hsec', sq, hsq, by rw [hkk, hke]⟩
    calc res.visibility
        = ⟨res.visibility.hide_from_toc, res.visibility.visible_to_staff_only⟩ := rfl
      _ = ⟨o.visibility.hide_from_toc, o.visibility.visible_to_staff_only⟩ := by rw [h1, h2]
      _ = o.visibility := rfl

/-- Witness for C1 (amended) at a concrete input: a well-formed outline with
a hidden section, a flagged sequence and an empty section round-trips through
the empty store. -/
theorem c1_roundtrip_amended_witness :
    StoreWF Store.empty ∧ OutlineWF oRT ∧ NoOrphans oRT ∧
    (∃ s', replace_course_outline oRT Store.empty = (s', none) ∧
      ∃ res, get_course_outline oRT.course_key s' = Except.ok res ∧
        res.sections = oRT.sections ∧
        (∀ k, dictLookup k res.sequences = dictLookup k oRT.sequences) ∧
        res.visibility = oRT.visibility) :=
  ⟨by decide, by decide, by decide,
   c1_roundtrip_amended oRT Store.empty (by decide) (by decide) (by decide)⟩

/-- C9: an empty section is preserved: for every well-keyed store and
well-formed outline containing a section with zero sequences, the write/read
round-trip succeeds and the read result still contains that empty section
(it is not an error). -/
theorem c9_empty_section_preserved (o : CourseOutlineData) (s : Store)
    (hS : StoreWF s) (hO : OutlineWF o) (sec : CourseSectionData)
    (hsec : sec ∈ o.sections) (hempty : sec.sequences = []) :
    ∃ s', replace_course_outline o s = (s', none) ∧
      ∃ res, get_course_outline o.course_key s' = Except.ok res ∧
        sec ∈ res.sections ∧ sec.sequences = [] := by
  obtain ⟨s', hrep, res, hget, -, -, -, -, hsecs, -, -, -⟩ := roundtrip_main o s hS hO
  refine ⟨s', hrep, res, hget, ?_, hempty⟩
  rw [hsecs]
  exact hsec

/-- Witness for C9 at a concrete input: the empty section of `oRT` survives
the round-trip from the empty store. -/
theorem c9_empty_section_preserved_witness :
    StoreWF Store.empty ∧ OutlineWF oRT ∧ secE ∈ oRT.sections ∧ secE.sequences = [] ∧
    (∃ s', replace_course_outline oRT Store.empty = (s', none) ∧
      ∃ res, get_course_outline oRT.course_key s' = Except.ok res ∧
        secE ∈ res.sections ∧ secE.sequences = []) :=
  ⟨by decide, by decide, by decide, by decide,
   c9_empty_section_preserved oRT Store.empty (by decide) (by decide) secE (by decide) (by decide)⟩
